import Mathlib

/-!
A verification development for the storage engine of Abseil's
`InlinedVector` (file `absl/container/internal/inlined_vector.h`).

The embedding models element buffers as slot arrays `List (Option α)`
(`none` = uninitialized slot, `some v` = a live element of value `v`),
heap buffers with explicit allocation identities, and the packed
`size-and-is-allocated` word exactly as in the source.  Construction from
a value source is modelled by a stream `List (Option α)` where a `none`
entry means "constructing this element throws"; operations that can
observe such a throw return `Except`.  Allocations, deallocations,
element constructions and destructions are logged in an event trace so
that leak-freedom and move/destruction-order properties can be stated.

Element moves are modelled as value transfers (a moved-from source keeps
its value until it is destroyed), matching the value-level abstraction
the specification itself uses; `EmplaceBackSlow` additionally takes an
explicit move-constructor function `mv : α → Option α` so that a failing
move of an existing element can be expressed (`mv v = none` = the move
constructor throws).
-/

namespace InlinedVec

/-- Events observable during a storage operation: buffer (de)allocation by
identity, element construction (flagged when the source is a move
iterator) and element destruction at a slot index. -/
inductive Ev : Type where
  | allocEv (id cap : Nat)
  | deallocEv (id cap : Nat)
  | constructEv (isMove : Bool) (idx : Nat)
  | destroyEv (idx : Nat)
deriving DecidableEq

/-- A buffer of element slots: `none` is an uninitialized slot, `some v`
holds a live element. -/
abbrev Buf (α : Type) := List (Option α)

instance {ε β : Type} [DecidableEq ε] [DecidableEq β] : DecidableEq (Except ε β) := fun a b =>
  match a, b with
  | .error e, .error f =>
    if h : e = f then .isTrue (by rw [h]) else .isFalse (fun hc => h (Except.error.inj hc))
  | .ok x, .ok y =>
    if h : x = y then .isTrue (by rw [h]) else .isFalse (fun hc => h (Except.ok.inj hc))
  | .error _, .ok _ => .isFalse (fun hc => Except.noConfusion hc)
  | .ok _, .error _ => .isFalse (fun hc => Except.noConfusion hc)

/-- Read a slot; out-of-range reads yield `none` (no live element). -/
def readSlot {α : Type} : Buf α → Nat → Option α
  | [], _ => none
  | v :: _, 0 => v
  | _ :: rest, n + 1 => readSlot rest n

/-! ### Capacity policy (`Storage::NextCapacity`, `Storage::ComputeCapacity`) -/

/-- `Storage::NextCapacity`: `current_capacity * 2`. -/
def nextCapacity (currentCapacity : Nat) : Nat := currentCapacity * 2

/-- `Storage::ComputeCapacity`: `max(NextCapacity(current), requested)`. -/
def computeCapacity (currentCapacity requestedCapacity : Nat) : Nat :=
  max (nextCapacity currentCapacity) requestedCapacity

/-! ### Element destruction (`DestroyElements`)

The source destroys `destroy_size` live elements starting at
`destroy_first`, highest index first.  The returned trace records the
destruction order. -/

/-- `DestroyElements(alloc, first, n)`: clear slots `[s, s+n)`, highest
index first, logging each destruction. -/
def destroyElements {α : Type} (s : Nat) (buf : Buf α) : Nat → Buf α × List Ev
  | 0 => (buf, [])
  | n + 1 =>
    let p := destroyElements s (buf.set (s + n) none) n
    (p.1, Ev.destroyEv (s + n) :: p.2)

/-! ### Element construction (`ConstructElements`)

The source pulls one value per slot from a value adapter; if construction
of element `i` throws, the elements `[first, first+i)` constructed by this
call are destroyed (via `DestroyElements`, i.e. in reverse order) and the
failure is rethrown.  The value stream is a `List (Option α)`; a `none`
entry means the construction of that element throws. -/

/-- Loop body of `ConstructElements`: `i` counts the elements already
constructed by this call. -/
def constructElems {α : Type} (mvFlag : Bool) (s : Nat) (buf : Buf α) (i : Nat) :
    List (Option α) → Except (Buf α × List Ev) (Buf α × List Ev)
  | [] => .ok (buf, [])
  | none :: _ =>
    let p := destroyElements s buf i
    .error (p.1, p.2)
  | some v :: rest =>
    match constructElems mvFlag s (buf.set (s + i) (some v)) (i + 1) rest with
    | .ok (b, es) => .ok (b, Ev.constructEv mvFlag (s + i) :: es)
    | .error (b, es) => .error (b, Ev.constructEv mvFlag (s + i) :: es)

/-- `ConstructElements(alloc, first, values, n)`: construct the slots
`[s, s + vals.length)` from the value stream `vals`. -/
def constructElements {α : Type} (mvFlag : Bool) (s : Nat) (buf : Buf α)
    (vals : List (Option α)) : Except (Buf α × List Ev) (Buf α × List Ev) :=
  constructElems mvFlag s buf 0 vals

/-- First position of the value stream whose construction throws. -/
def firstFail {α : Type} : List (Option α) → Option Nat
  | [] => none
  | none :: _ => some 0
  | some _ :: rest => (firstFail rest).map (· + 1)

/-- `AssignElements(first, values, n)`: overwrite live slots with fresh
values; an assignment failure aborts with no rollback (the slots keep the
mixed old/new values), as in the source. -/
def assignElements {α : Type} (s : Nat) (buf : Buf α) :
    List (Option α) → Except (Buf α) (Buf α)
  | [] => .ok buf
  | none :: _ => .error buf
  | some v :: rest => assignElements (s + 1) (buf.set s (some v)) rest

/-! ### Bulk element transfer loops

Moves of existing elements between or within buffers are modelled as
value transfers (see the header comment).  `copyAcross` transfers between
two distinct buffers (the source's `ConstructElements` over a
move-iterator into a freshly allocated buffer); `copyWithin` is the same
sequential loop when source and destination ranges live in one buffer;
`backMove` is `Storage::Insert`'s explicit backward move-assignment loop. -/

/-- Transfer `n` slot values from `src` (starting at `s`) into `dst`
(starting at `d`), ascending. -/
def copyAcross {α : Type} (src : Buf α) (s : Nat) (dst : Buf α) (d : Nat) :
    Nat → Buf α
  | 0 => dst
  | n + 1 => copyAcross src (s + 1) (dst.set d (readSlot src s)) (d + 1) n

/-- Sequential in-buffer ascending transfer: slot `d+k` receives the value
slot `s+k` holds when step `k` runs (exactly the source's loop over a
(move-)iterator into the same buffer). -/
def copyWithin {α : Type} (buf : Buf α) (d s : Nat) : Nat → Buf α
  | 0 => buf
  | n + 1 => copyWithin (buf.set d (readSlot buf s)) (d + 1) (s + 1) n

/-- `Storage::Insert`'s backward move-assignment loop: `n` steps, writing
slots `dEnd-1, dEnd-2, ...` from slots `sEnd-1, sEnd-2, ...`. -/
def backMove {α : Type} (buf : Buf α) (dEnd sEnd : Nat) : Nat → Buf α
  | 0 => buf
  | n + 1 => backMove (buf.set (dEnd - 1) (readSlot buf (sEnd - 1))) (dEnd - 1) (sEnd - 1) n

/-! ### Characterizations of construction and assignment -/

/-- Events a construct/destroy loop may emit (no buffer (de)allocation). -/
def elemEv : Ev → Bool
  | Ev.constructEv _ _ => true
  | Ev.destroyEv _ => true
  | _ => false

/-! ### The Storage state

`Storage<T, N, A>` holds a `CompressedTuple<A, SizeType>` (the packed
`size << 1 | is_allocated` word; the allocator has no observable state in
this model and is dropped) and a union of the two physical layouts.  The
union is modelled as a tagged sum; heap buffers carry an allocation
identity and their allocated capacity. -/

/-- The `union Data { Allocated allocated; Inlined inlined; }` of the
source, as a tagged sum.  A heap buffer records the identity (`id`) it was
allocated under, its `allocated_capacity`, and its slots. -/
inductive Data (α : Type) where
  | inl (slots : Buf α)
  | alloc (id : Nat) (cap : Nat) (slots : Buf α)
deriving DecidableEq

/-- `Storage<T, N, A>`: the packed size-and-is-allocated word plus the
buffer union. -/
structure St (α : Type) where
  word : Nat
  data : Data α
deriving DecidableEq

/-- `GetSize()`: `GetSizeAndIsAllocated() >> 1`. -/
def getSize {α : Type} (st : St α) : Nat := st.word / 2

/-- `GetIsAllocated()`: `GetSizeAndIsAllocated() & 1`. -/
def getIsAllocated {α : Type} (st : St α) : Bool := st.word % 2 == 1

/-- Which union member a `Data` value is. -/
def dataIsAlloc {α : Type} : Data α → Bool
  | Data.inl _ => false
  | Data.alloc _ _ _ => true

/-- The slots of the live union member. -/
def getBuf {α : Type} : St α → Buf α
  | ⟨_, Data.inl slots⟩ => slots
  | ⟨_, Data.alloc _ _ slots⟩ => slots

/-- Replace the slots of the live union member. -/
def setBuf {α : Type} (st : St α) (b : Buf α) : St α :=
  match st with
  | ⟨w, Data.inl _⟩ => ⟨w, Data.inl b⟩
  | ⟨w, Data.alloc i c _⟩ => ⟨w, Data.alloc i c b⟩

/-- The capacity of the live buffer: `GetInlinedCapacity()` (= `N`) for
the inline layout, `GetAllocatedCapacity()` otherwise (as selected by
`MakeStorageView`). -/
def cap {α : Type} (N : Nat) : St α → Nat
  | ⟨_, Data.inl _⟩ => N
  | ⟨_, Data.alloc _ c _⟩ => c

/-- `SetIsAllocated()`: `GetSizeAndIsAllocated() |= 1`. -/
def setIsAllocated {α : Type} (st : St α) : St α :=
  { st with word := 2 * (st.word / 2) + 1 }

/-- `UnsetIsAllocated()`: `GetSizeAndIsAllocated() &= ~1`. -/
def unsetIsAllocated {α : Type} (st : St α) : St α :=
  { st with word := 2 * (st.word / 2) }

/-- `SetSize(size)`: `(size << 1) | GetIsAllocated()`. -/
def setSize {α : Type} (st : St α) (n : Nat) : St α :=
  { st with word := 2 * n + st.word % 2 }

/-- `AddSize(count)`: `GetSizeAndIsAllocated() += count << 1`. -/
def addSize {α : Type} (st : St α) (k : Nat) : St α :=
  { st with word := st.word + 2 * k }

/-- `SubtractSize(count)`: `GetSizeAndIsAllocated() -= count << 1`
(precondition `count <= GetSize()`). -/
def subtractSize {α : Type} (st : St α) (k : Nat) : St α :=
  { st with word := st.word - 2 * k }

/-- A freshly constructed `Storage()`: word `0`, inline layout, all `N`
inline slots uninitialized. -/
def emptySt (α : Type) (N : Nat) : St α := ⟨0, Data.inl (List.replicate N none)⟩

/-- The logical contents: the `size` live slots, in order. -/
def liveList {α : Type} (st : St α) : List (Option α) :=
  (List.range (getSize st)).map (fun j => readSlot (getBuf st) j)

/-- Well-formedness of a Storage: the live buffer has exactly `capacity`
slots, the packed low bit agrees with the live union member,
`size ≤ capacity`, and exactly the slots below `size` hold live
elements. -/
def WF {α : Type} (N : Nat) (st : St α) : Prop :=
  (getBuf st).length = cap N st ∧
  getIsAllocated st = dataIsAlloc st.data ∧
  getSize st ≤ cap N st ∧
  ∀ j < cap N st, (readSlot (getBuf st) j).isSome = decide (j < getSize st)

instance {α : Type} (N : Nat) (st : St α) : Decidable (WF N st) :=
  inferInstanceAs (Decidable ((getBuf st).length = cap N st ∧
    getIsAllocated st = dataIsAlloc st.data ∧
    getSize st ≤ cap N st ∧
    ∀ j < cap N st, (readSlot (getBuf st) j).isSome = decide (j < getSize st)))

/-- Well-formedness together with `N ≤ capacity` (the capacity of the
live buffer never drops below the inline capacity; this holds on every
reachable Storage and is the inductive invariant used for operation
sequences). -/
def WFC {α : Type} (N : Nat) (st : St α) : Prop :=
  WF N st ∧ N ≤ cap N st

instance {α : Type} (N : Nat) (st : St α) : Decidable (WFC N st) :=
  inferInstanceAs (Decidable (WF N st ∧ N ≤ cap N st))

/-! ### Leak accounting over event traces -/

/-- Identities of buffers allocated during a trace. -/
def allocdIds (es : List Ev) : List Nat :=
  es.filterMap fun e => match e with | Ev.allocEv id _ => some id | _ => none

/-- Identities of buffers deallocated during a trace. -/
def deallocdIds (es : List Ev) : List Nat :=
  es.filterMap fun e => match e with | Ev.deallocEv id _ => some id | _ => none

/-- Every buffer allocated during the trace is also deallocated during it. -/
def NoLeak (es : List Ev) : Prop := ∀ i ∈ allocdIds es, i ∈ deallocdIds es

/-! ### The mutating operations -/

/-- `Storage::Initialize(values, new_size)` followed, on the throwing
path, by nothing (the error value is the Storage exactly as the exception
leaves it; see `destructorEvents` for the teardown `~Storage` then
performs).  Only callable on a default-constructed Storage. -/
def initSt {α : Type} (N : Nat) (st : St α) (fresh : Nat) (vals : List (Option α))
    (newSize : Nat) : Except (St α × Nat × List Ev) (St α × Nat × List Ev) :=
  if newSize > N then
    let newCap := computeCapacity N newSize
    let st1 := setIsAllocated { st with data := Data.alloc fresh newCap (List.replicate newCap none) }
    match constructElements false 0 (List.replicate newCap none) (vals.take newSize) with
    | .error (b, es) => .error (setBuf st1 b, fresh + 1, Ev.allocEv fresh newCap :: es)
    | .ok (b, es) => .ok (addSize (setBuf st1 b) newSize, fresh + 1, Ev.allocEv fresh newCap :: es)
  else
    match constructElements false 0 (getBuf st) (vals.take newSize) with
    | .error (b, es) => .error (setBuf st b, fresh, es)
    | .ok (b, es) => .ok (addSize (setBuf st b) newSize, fresh, es)

/-- `~Storage()`: destroy the `GetSize()` live elements, then deallocate
the heap buffer if allocated (for trivially destructible elements the
source skips straight to the deallocation; the observable deallocation is
the same). -/
def destructorEvents {α : Type} (st : St α) : List Ev :=
  if st.word = 0 then []
  else
    (destroyElements 0 (getBuf st) (getSize st)).2 ++
      (match st.data with
       | Data.alloc id c _ => [Ev.deallocEv id c]
       | Data.inl _ => [])

/-- The stream of values a move iterator over `buf[0..n)` yields; `mv` is
the element move constructor (`mv v = none` models a throwing move). -/
def moveList {α : Type} (mv : α → Option α) (buf : Buf α) (n : Nat) : List (Option α) :=
  (List.range n).map fun j => (readSlot buf j).bind mv

/-- `Storage::EmplaceBackSlow(args...)`: allocate a buffer of twice the
current capacity, construct the new element into it at index `size`
first, then move the existing elements across; on a move failure destroy
the new element and release the new buffer, leaving the Storage
untouched. -/
def emplaceBackSlowSt {α : Type} (N : Nat) (mv : α → Option α) (st : St α) (fresh : Nat)
    (elem? : Option α) : Except (St α × Nat × List Ev) (St α × Nat × List Ev) :=
  let size := getSize st
  let newCap := nextCapacity (cap N st)
  let newBuf : Buf α := List.replicate newCap none
  match elem? with
  | none =>
    -- the construction of the new element throws before any move; the
    -- allocation transaction's destructor releases the new buffer
    .error (st, fresh + 1, [Ev.allocEv fresh newCap, Ev.deallocEv fresh newCap])
  | some v =>
    let b1 := newBuf.set size (some v)
    match constructElements true 0 b1 (moveList mv (getBuf st) size) with
    | .error (_, es) =>
      -- catch: destroy the new element, rethrow; the allocation
      -- transaction's destructor then releases the new buffer
      .error (st, fresh + 1,
        Ev.allocEv fresh newCap :: Ev.constructEv false size ::
          (es ++ [Ev.destroyEv size, Ev.deallocEv fresh newCap]))
    | .ok (b2, es) =>
      let p := destroyElements 0 (getBuf st) size
      let oldDealloc : List Ev := match st.data with
        | Data.alloc oid ocap _ => [Ev.deallocEv oid ocap]
        | Data.inl _ => []
      .ok (addSize (setIsAllocated ⟨st.word, Data.alloc fresh newCap b2⟩) 1, fresh + 1,
        Ev.allocEv fresh newCap :: Ev.constructEv false size :: (es ++ p.2 ++ oldDealloc))

/-- `Storage::EmplaceBack(args...)`: construct in place when
`size != capacity`, otherwise take the slow path. -/
def emplaceBackSt {α : Type} (N : Nat) (mv : α → Option α) (st : St α) (fresh : Nat)
    (elem? : Option α) : Except (St α × Nat × List Ev) (St α × Nat × List Ev) :=
  if getSize st ≠ cap N st then
    match elem? with
    | none => .error (st, fresh, [])
    | some v =>
      .ok (addSize (setBuf st ((getBuf st).set (getSize st) (some v))) 1, fresh,
        [Ev.constructEv false (getSize st)])
  else emplaceBackSlowSt N mv st fresh elem?

/-- `Storage::Insert(pos, values, insert_count)` with
`insert_count = vals.length` and `pos` at element index `idx`.  On the
reallocation path the new elements are constructed into the new buffer
first, then the prefix `[0, idx)` and suffix `[idx, size)` of the old
elements are moved around them; on the in-place path the displaced tail
is move-constructed/move-assigned backward before the gap is filled from
`vals`.  A construction failure is rolled back by the transaction guards
(the failure value carries no state; no claim inspects these paths). -/
def insertSt {α : Type} (N : Nat) (st : St α) (fresh : Nat) (idx : Nat)
    (vals : List (Option α)) : Except Unit (St α × Nat) :=
  let size := getSize st
  let count := vals.length
  let insertEnd := idx + count
  let newSize := size + count
  if newSize > cap N st then
    let newCap := computeCapacity (cap N st) newSize
    match constructElements false idx (List.replicate newCap none) vals with
    | .error _ => .error ()
    | .ok (b1, _) =>
      let b2 := copyAcross (getBuf st) 0 b1 0 idx
      let b3 := copyAcross (getBuf st) idx b2 insertEnd (size - idx)
      -- destroy old, commit transactions, release old buffer,
      -- `SetAllocatedSize(new_size)`
      .ok (⟨2 * newSize + 1, Data.alloc fresh newCap b3⟩, fresh + 1)
  else
    let buf := getBuf st
    let destIdx := max insertEnd size
    let b1 := copyWithin buf destIdx (destIdx - count) (newSize - destIdx)
    let b2 := backMove b1 destIdx (destIdx - count) (destIdx - insertEnd)
    let a := newSize - destIdx
    match assignElements idx b2 (vals.take a) with
    | .error _ => .error ()
    | .ok b3 =>
      match constructElements false (idx + a) b3 (vals.drop a) with
      | .error _ => .error ()
      | .ok (b4, _) => .ok (setBuf (addSize st count) b4, fresh)

/-- `Storage::Erase(from, to)` for the element index range `[i, j)`:
move-assign the tail down over the gap, destroy the trailing `j - i`
slots, `SubtractSize(j - i)`. -/
def eraseSt {α : Type} (st : St α) (i j : Nat) : St α :=
  let size := getSize st
  let esz := j - i
  let b1 := copyWithin (getBuf st) i j (size - j)
  let b2 := (destroyElements (size - esz) b1 esz).1
  setBuf (subtractSize st esz) b2

/-- `Storage::Assign(values, new_size)`: reuse the buffer when capacity
suffices (assigning over live slots and constructing/destroying the size
difference), else construct everything into a newly allocated buffer and
release the old one only afterwards. -/
def assignSt {α : Type} (N : Nat) (st : St α) (fresh : Nat) (vals : List (Option α))
    (newSize : Nat) : Except Unit (St α × Nat) :=
  let size := getSize st
  if newSize > cap N st then
    let newCap := computeCapacity (cap N st) newSize
    match constructElements false 0 (List.replicate newCap none) (vals.take newSize) with
    | .error _ => .error ()
    | .ok (b1, _) =>
      -- destroy old elements, release old buffer, acquire,
      -- `SetIsAllocated`, `SetSize(new_size)`
      .ok (⟨2 * newSize + 1, Data.alloc fresh newCap b1⟩, fresh + 1)
  else if newSize > size then
    match assignElements 0 (getBuf st) (vals.take size) with
    | .error _ => .error ()
    | .ok b1 =>
      match constructElements false size b1 ((vals.drop size).take (newSize - size)) with
      | .error _ => .error ()
      | .ok (b2, _) => .ok (setBuf (setSize st newSize) b2, fresh)
  else
    match assignElements 0 (getBuf st) (vals.take newSize) with
    | .error _ => .error ()
    | .ok b1 =>
      let b2 := (destroyElements newSize b1 (size - newSize)).1
      .ok (setBuf (setSize st newSize) b2, fresh)

/-- `Storage::Resize(values, new_size)`: shrink destroys the tail; growth
within capacity constructs in place; growth beyond capacity constructs
the new elements into a new buffer first and then moves the old ones
across. -/
def resizeSt {α : Type} (N : Nat) (st : St α) (fresh : Nat) (vals : List (Option α))
    (newSize : Nat) : Except Unit (St α × Nat) :=
  let size := getSize st
  if newSize ≤ size then
    let b := (destroyElements newSize (getBuf st) (size - newSize)).1
    .ok (setBuf (setSize st newSize) b, fresh)
  else if newSize ≤ cap N st then
    match constructElements false size (getBuf st) (vals.take (newSize - size)) with
    | .error _ => .error ()
    | .ok (b, _) => .ok (setBuf (setSize st newSize) b, fresh)
  else
    let newCap := computeCapacity (cap N st) newSize
    match constructElements false size (List.replicate newCap none) (vals.take (newSize - size)) with
    | .error _ => .error ()
    | .ok (b1, _) =>
      let b2 := copyAcross (getBuf st) 0 b1 0 size
      .ok (⟨2 * newSize + 1, Data.alloc fresh newCap b2⟩, fresh + 1)

/-- `Storage::Reserve(requested_capacity)`: early-out when the capacity
already suffices; otherwise move everything into a buffer of
`ComputeCapacity(current, requested)` and release the old one. -/
def reserveSt {α : Type} (N : Nat) (st : St α) (fresh : Nat) (req : Nat) :
    St α × Nat × List Ev :=
  if req ≤ cap N st then (st, fresh, [])
  else
    let newCap := computeCapacity (cap N st) req
    let b1 := copyAcross (getBuf st) 0 (List.replicate newCap none) 0 (getSize st)
    let p := destroyElements 0 (getBuf st) (getSize st)
    let oldDealloc : List Ev := match st.data with
      | Data.alloc oid ocap _ => [Ev.deallocEv oid ocap]
      | Data.inl _ => []
    (setIsAllocated ⟨st.word, Data.alloc fresh newCap b1⟩, fresh + 1,
      Ev.allocEv fresh newCap :: (p.2 ++ oldDealloc))

/-- `Storage::ShrinkToFit()` (success paths; `assert(GetIsAllocated())`,
modelled as a no-op on an inline Storage): early-out when
`size == capacity`; else move the elements into the inline buffer when
`size <= N`, or into a fresh buffer of capacity exactly `size` otherwise,
and release the old heap buffer. -/
def shrinkToFitSt {α : Type} (N : Nat) (st : St α) (fresh : Nat) : St α × Nat × List Ev :=
  match st.data with
  | Data.inl _ => (st, fresh, [])
  | Data.alloc oid ocap oslots =>
    let size := getSize st
    if size = ocap then (st, fresh, [])
    else if size > N then
      let b1 := copyAcross oslots 0 (List.replicate size none) 0 size
      let p := destroyElements 0 oslots size
      (⟨st.word, Data.alloc fresh size b1⟩, fresh + 1,
        Ev.allocEv fresh size :: (p.2 ++ [Ev.deallocEv oid ocap]))
    else
      let b1 := copyAcross oslots 0 (List.replicate N none) 0 size
      let p := destroyElements 0 oslots size
      (unsetIsAllocated ⟨st.word, Data.inl b1⟩, fresh,
        p.2 ++ [Ev.deallocEv oid ocap])

/-- Both-inline case of `Storage::Swap`: `sm` is the smaller side.
Element-wise `swap` of the common prefix, then move-construct `lg`'s tail
into `sm`'s spare inline slots and destroy it in `lg`; the packed words
are exchanged by the caller's final `swap`, folded in here. -/
def swapBothInl {α : Type} (sm lg : St α) : St α × St α :=
  let s := getSize sm
  let l := getSize lg
  let smB := copyAcross (getBuf lg) 0 (getBuf sm) 0 s
  let lgB := copyAcross (getBuf sm) 0 (getBuf lg) 0 s
  let smB2 := copyAcross (getBuf lg) s smB s (l - s)
  let lgB2 := (destroyElements s lgB (l - s)).1
  (⟨lg.word, Data.inl smB2⟩, ⟨sm.word, Data.inl lgB2⟩)

/-- Mixed case of `Storage::Swap`, with the sides already selected
(`alS` = the allocated side, `il` = the inline side, as the source does
with `allocated_ptr`/`inlined_ptr`): move the inline side's elements into
the allocated side's inline region, hand the saved heap buffer to the
inline side, exchange the packed words.  Returns `(alS-after, il-after)`. -/
def swapMixed {α : Type} (N : Nat) (alS il : St α) : St α × St α :=
  match alS.data with
  | Data.alloc oid ocap oslots =>
    let newInl := copyAcross (getBuf il) 0 (List.replicate N none) 0 (getSize il)
    (⟨il.word, Data.inl newInl⟩, ⟨alS.word, Data.alloc oid ocap oslots⟩)
  | Data.inl _ => (alS, il)

/-- `Storage::Swap(other)`: pointer swap when both are allocated;
element-wise swap plus tail transfer when both are inline; in the mixed
case the inline side's elements move into the allocated side's inline
region and the heap buffer changes owner.  Returns the post-call states
of `(this, other)`. -/
def swapSt {α : Type} (N : Nat) (a b : St α) : St α × St α :=
  if getIsAllocated a && getIsAllocated b then
    (⟨b.word, b.data⟩, ⟨a.word, a.data⟩)
  else if !(getIsAllocated a) && !(getIsAllocated b) then
    if getSize a > getSize b then
      let p := swapBothInl b a
      (p.2, p.1)
    else
      swapBothInl a b
  else if getIsAllocated a then
    swapMixed N a b
  else
    let p := swapMixed N b a
    (p.2, p.1)

/-! ### Sequences of mutating operations (for the data-model invariant) -/

/-- One mutating operation, with its arguments. -/
inductive Op (α : Type) where
  | initO (vals : List (Option α)) (n : Nat)
  | assignO (vals : List (Option α)) (n : Nat)
  | resizeO (vals : List (Option α)) (n : Nat)
  | insertO (idx : Nat) (vals : List (Option α))
  | eraseO (i j : Nat)
  | emplaceO (v? : Option α)
  | reserveO (n : Nat)
  | shrinkO
  | swapO (other : St α)

/-- Apply one operation; `none` when its precondition does not hold or it
fails (the invariant claim is about operations that complete
successfully; in particular the consumed prefix of each operation's value
stream must construct without failure, which is exactly the condition for
the operation to return normally).  Moves are value transfers
(`Option.some` as the move constructor). -/
def stepOp {α : Type} (N : Nat) : Op α → St α × Nat → Option (St α × Nat)
  | Op.initO vals n, (st, f) =>
    if getSize st = 0 ∧ getIsAllocated st = false ∧ n ≤ vals.length ∧
        ∀ v ∈ vals.take n, v.isSome = true then
      match initSt N st f vals n with
      | .ok (st', f', _) => some (st', f')
      | .error _ => none
    else none
  | Op.assignO vals n, (st, f) =>
    if n ≤ vals.length ∧ ∀ v ∈ vals.take n, v.isSome = true then
      (assignSt N st f vals n).toOption
    else none
  | Op.resizeO vals n, (st, f) =>
    if n - getSize st ≤ vals.length ∧
        ∀ v ∈ vals.take (n - getSize st), v.isSome = true then
      (resizeSt N st f vals n).toOption
    else none
  | Op.insertO idx vals, (st, f) =>
    if idx ≤ getSize st ∧ ∀ v ∈ vals, v.isSome = true then
      (insertSt N st f idx vals).toOption
    else none
  | Op.eraseO i j, (st, f) =>
    if i ≤ j ∧ j ≤ getSize st then some (eraseSt st i j, f) else none
  | Op.emplaceO v?, (st, f) =>
    match emplaceBackSt N Option.some st f v? with
    | .ok (st', f', _) => some (st', f')
    | .error _ => none
  | Op.reserveO n, (st, f) =>
    let r := reserveSt N st f n
    some (r.1, r.2.1)
  | Op.shrinkO, (st, f) =>
    if getIsAllocated st then
      let r := shrinkToFitSt N st f
      some (r.1, r.2.1)
    else none
  | Op.swapO other, (st, f) =>
    if WFC N other then some ((swapSt N st other).1, f) else none

/-- Run a sequence of operations from a state. -/
def runOps {α : Type} (N : Nat) : List (Op α) → St α × Nat → Option (St α × Nat)
  | [], p => some p
  | op :: rest, p =>
    match stepOp N op p with
    | some p' => runOps N rest p'
    | none => none

/-! ## Theorems -/

theorem readSlot_nil {α : Type} (j : Nat) : readSlot ([] : Buf α) j = none := by
  cases j <;> rfl

theorem readSlot_eq_none_of_le {α : Type} (buf : Buf α) (j : Nat)
    (h : buf.length ≤ j) : readSlot buf j = none := by
  induction buf generalizing j with
  | nil => exact readSlot_nil j
  | cons v rest ih =>
    cases j with
    | zero => simp at h
    | succ n => exact ih n (by simpa using h)

theorem readSlot_set_eq {α : Type} (buf : Buf α) (i : Nat) (v : Option α)
    (h : i < buf.length) : readSlot (buf.set i v) i = v := by
  induction buf generalizing i with
  | nil => simp at h
  | cons w rest ih =>
    cases i with
    | zero => rfl
    | succ n => exact ih n (by simpa using h)

theorem readSlot_set_ne {α : Type} (buf : Buf α) (i : Nat) (v : Option α)
    (j : Nat) (h : i ≠ j) : readSlot (buf.set i v) j = readSlot buf j := by
  induction buf generalizing i j with
  | nil => rfl
  | cons w rest ih =>
    cases i with
    | zero => cases j with
      | zero => exact absurd rfl h
      | succ m => rfl
    | succ n => cases j with
      | zero => rfl
      | succ m => exact ih n m (fun hc => h (by rw [hc]))

theorem readSlot_getElem {α : Type} (buf : Buf α) (j : Nat) (h : j < buf.length) :
    readSlot buf j = buf[j] := by
  induction buf generalizing j with
  | nil => simp at h
  | cons v rest ih =>
    cases j with
    | zero => rfl
    | succ n => simpa using ih n (by simpa using h)

/-- Two slot arrays of equal length with equal reads everywhere are equal. -/
theorem buf_ext {α : Type} (a b : Buf α) (hlen : a.length = b.length)
    (h : ∀ j, readSlot a j = readSlot b j) : a = b := by
  induction a generalizing b with
  | nil => cases b with
    | nil => rfl
    | cons w bs => simp at hlen
  | cons v as ih =>
    cases b with
    | nil => simp at hlen
    | cons w bs =>
      have h0 := h 0
      simp only [readSlot] at h0
      subst h0
      have : as = bs := ih bs (by simpa using hlen) (fun j => h (j + 1))
      rw [this]

theorem readSlot_replicate_none {α : Type} (n j : Nat) :
    readSlot (List.replicate n (none : Option α)) j = none := by
  induction n generalizing j with
  | zero => exact readSlot_nil j
  | succ m ih =>
    cases j with
    | zero => rfl
    | succ k => exact ih k

theorem readSlot_append {α : Type} (a b : Buf α) (j : Nat) :
    readSlot (a ++ b) j = if j < a.length then readSlot a j else readSlot b (j - a.length) := by
  induction a generalizing j with
  | nil => simp [readSlot_nil]
  | cons v as ih =>
    cases j with
    | zero => simp [readSlot]
    | succ n =>
      rw [List.cons_append]
      show readSlot (as ++ b) n = _
      rw [ih n]
      by_cases h : n < as.length
      · have h2 : n + 1 < (v :: as).length := by
          simp only [List.length_cons]; omega
        rw [if_pos h, if_pos h2]
        rfl
      · have h2 : ¬ n + 1 < (v :: as).length := by
          simp only [List.length_cons]; omega
        rw [if_neg h, if_neg h2, List.length_cons, Nat.succ_sub_succ]

theorem readSlot_take {α : Type} (l : Buf α) (a j : Nat) :
    readSlot (l.take a) j = if j < a then readSlot l j else none := by
  induction l generalizing a j with
  | nil => cases a <;> simp [readSlot_nil]
  | cons v rest ih =>
    cases a with
    | zero => simp [readSlot_nil]
    | succ m =>
      cases j with
      | zero => simp [readSlot]
      | succ n =>
        simp only [List.take, readSlot, ih m n]
        by_cases h : n < m
        · simp [h, Nat.succ_lt_succ h]
        · simp [h, fun hc => h (Nat.lt_of_succ_lt_succ hc)]

theorem readSlot_drop {α : Type} (l : Buf α) (a j : Nat) :
    readSlot (l.drop a) j = readSlot l (a + j) := by
  induction l generalizing a j with
  | nil => simp [readSlot_nil]
  | cons v rest ih =>
    cases a with
    | zero => simp [readSlot]
    | succ m =>
      simp only [List.drop, ih m j]
      have : m + 1 + j = m + j + 1 := by omega
      rw [this]
      rfl

theorem readSlot_range_map {α : Type} (f : Nat → Option α) (n j : Nat) :
    readSlot ((List.range n).map f) j = if j < n then f j else none := by
  induction n with
  | zero => simp [readSlot_nil]
  | succ m ih =>
    rw [List.range_succ, List.map_append, readSlot_append]
    simp only [List.length_map, List.length_range]
    by_cases h : j < m
    · rw [if_pos h, ih, if_pos h, if_pos (by omega)]
    · by_cases h2 : j = m
      · subst h2
        rw [if_neg h, if_pos (by omega), Nat.sub_self]
        simp [readSlot]
      · have h3 : ¬ j < m + 1 := by omega
        rw [if_neg h, if_neg h3]
        obtain ⟨k, hk⟩ : ∃ k, j - m = k + 1 := ⟨j - m - 1, by omega⟩
        rw [hk]
        show readSlot ([] : Buf α) k = none
        exact readSlot_nil k

theorem le_computeCapacity_right (c r : Nat) : r ≤ computeCapacity c r :=
  le_max_right _ _

theorem destroyElements_length {α : Type} (s : Nat) (buf : Buf α) (n : Nat) :
    (destroyElements s buf n).1.length = buf.length := by
  induction n generalizing buf with
  | zero => rfl
  | succ m ih => simpa [destroyElements] using ih (buf.set (s + m) none)

theorem readSlot_destroyElements {α : Type} (s : Nat) (buf : Buf α) (n j : Nat)
    (hlen : s + n ≤ buf.length) :
    readSlot (destroyElements s buf n).1 j =
      if s ≤ j ∧ j < s + n then none else readSlot buf j := by
  induction n generalizing buf with
  | zero =>
    show readSlot buf j = if s ≤ j ∧ j < s + 0 then none else readSlot buf j
    rw [if_neg (by omega : ¬ (s ≤ j ∧ j < s + 0))]
  | succ m ih =>
    simp only [destroyElements]
    rw [ih (buf.set (s + m) none) (by simpa using Nat.le_of_succ_le (by omega))]
    by_cases h1 : s ≤ j ∧ j < s + m
    · have : s ≤ j ∧ j < s + (m + 1) := by omega
      simp [h1, this]
    · by_cases h2 : j = s + m
      · subst h2
        have hin : s ≤ s + m ∧ s + m < s + (m + 1) := by omega
        simp [h1, hin, readSlot_set_eq buf (s + m) none (by omega)]
      · have hout : ¬ (s ≤ j ∧ j < s + (m + 1)) := by omega
        simp [h1, hout, readSlot_set_ne buf (s + m) none j (fun hc => h2 hc.symm)]

theorem destroyElements_trace {α : Type} (s : Nat) (buf : Buf α) (n : Nat) :
    (destroyElements s buf n).2 =
      (List.range n).reverse.map (fun k => Ev.destroyEv (s + k)) := by
  induction n generalizing buf with
  | zero => rfl
  | succ m ih =>
    simp only [destroyElements, List.range_succ, List.reverse_append,
      List.reverse_cons, List.reverse_nil, List.nil_append, List.map_cons,
      List.cons_append, List.singleton_append]
    rw [ih]

theorem copyAcross_length {α : Type} (src : Buf α) (s : Nat) (dst : Buf α)
    (d n : Nat) : (copyAcross src s dst d n).length = dst.length := by
  induction n generalizing s dst d with
  | zero => rfl
  | succ m ih => simpa [copyAcross] using ih (s + 1) (dst.set d (readSlot src s)) (d + 1)

theorem copyWithin_length {α : Type} (buf : Buf α) (d s n : Nat) :
    (copyWithin buf d s n).length = buf.length := by
  induction n generalizing buf d s with
  | zero => rfl
  | succ m ih => simpa [copyWithin] using ih (buf.set d (readSlot buf s)) (d + 1) (s + 1)

theorem backMove_length {α : Type} (buf : Buf α) (dEnd sEnd n : Nat) :
    (backMove buf dEnd sEnd n).length = buf.length := by
  induction n generalizing buf dEnd sEnd with
  | zero => rfl
  | succ m ih =>
    simpa [backMove] using ih (buf.set (dEnd - 1) (readSlot buf (sEnd - 1))) (dEnd - 1) (sEnd - 1)

theorem readSlot_copyAcross {α : Type} (src : Buf α) (s : Nat) (dst : Buf α)
    (d n : Nat) (hlen : d + n ≤ dst.length) (j : Nat) :
    readSlot (copyAcross src s dst d n) j =
      if d ≤ j ∧ j < d + n then readSlot src (s + (j - d)) else readSlot dst j := by
  induction n generalizing s dst d with
  | zero =>
    show readSlot dst j = _
    rw [if_neg (by omega : ¬ (d ≤ j ∧ j < d + 0))]
  | succ m ih =>
    show readSlot (copyAcross src (s + 1) (dst.set d (readSlot src s)) (d + 1) m) j = _
    rw [ih (s + 1) (dst.set d (readSlot src s)) (d + 1)
      (by rw [List.length_set]; omega)]
    by_cases h1 : d + 1 ≤ j ∧ j < d + 1 + m
    · rw [if_pos h1, if_pos (show d ≤ j ∧ j < d + (m + 1) by omega)]
      have : s + 1 + (j - (d + 1)) = s + (j - d) := by omega
      rw [this]
    · by_cases h2 : j = d
      · rw [if_neg h1, if_pos (show d ≤ j ∧ j < d + (m + 1) by omega)]
        rw [h2, readSlot_set_eq dst d _ (by omega), Nat.sub_self, Nat.add_zero]
      · rw [if_neg h1, if_neg (show ¬ (d ≤ j ∧ j < d + (m + 1)) by omega)]
        exact readSlot_set_ne dst d _ j (fun hc => h2 hc.symm)

theorem readSlot_copyWithin {α : Type} (buf : Buf α) (d s n : Nat)
    (hds : d ≤ s ∨ s + n ≤ d) (hlen : d + n ≤ buf.length) (j : Nat) :
    readSlot (copyWithin buf d s n) j =
      if d ≤ j ∧ j < d + n then readSlot buf (s + (j - d)) else readSlot buf j := by
  induction n generalizing buf d s with
  | zero =>
    show readSlot buf j = _
    rw [if_neg (by omega : ¬ (d ≤ j ∧ j < d + 0))]
  | succ m ih =>
    show readSlot (copyWithin (buf.set d (readSlot buf s)) (d + 1) (s + 1) m) j = _
    rw [ih (buf.set d (readSlot buf s)) (d + 1) (s + 1)
      (by omega) (by rw [List.length_set]; omega)]
    by_cases h1 : d + 1 ≤ j ∧ j < d + 1 + m
    · rw [if_pos h1, if_pos (show d ≤ j ∧ j < d + (m + 1) by omega)]
      rw [readSlot_set_ne buf d _ (s + 1 + (j - (d + 1))) (by omega)]
      have : s + 1 + (j - (d + 1)) = s + (j - d) := by omega
      rw [this]
    · by_cases h2 : j = d
      · rw [if_neg h1, if_pos (show d ≤ j ∧ j < d + (m + 1) by omega)]
        rw [h2, readSlot_set_eq buf d _ (by omega), Nat.sub_self, Nat.add_zero]
      · rw [if_neg h1, if_neg (show ¬ (d ≤ j ∧ j < d + (m + 1)) by omega)]
        exact readSlot_set_ne buf d _ j (fun hc => h2 hc.symm)

theorem readSlot_backMove {α : Type} (buf : Buf α) (dEnd sEnd n : Nat)
    (hends : sEnd ≤ dEnd) (hn : n ≤ sEnd) (hlen : dEnd ≤ buf.length) (j : Nat) :
    readSlot (backMove buf dEnd sEnd n) j =
      if dEnd - n ≤ j ∧ j < dEnd then readSlot buf (sEnd - (dEnd - j)) else readSlot buf j := by
  induction n generalizing buf dEnd sEnd with
  | zero =>
    show readSlot buf j = _
    rw [if_neg (by omega : ¬ (dEnd - 0 ≤ j ∧ j < dEnd))]
  | succ m ih =>
    show readSlot (backMove (buf.set (dEnd - 1) (readSlot buf (sEnd - 1))) (dEnd - 1) (sEnd - 1) m) j = _
    rw [ih (buf.set (dEnd - 1) (readSlot buf (sEnd - 1))) (dEnd - 1) (sEnd - 1)
      (by omega) (by omega) (by rw [List.length_set]; omega)]
    by_cases h1 : dEnd - 1 - m ≤ j ∧ j < dEnd - 1
    · rw [if_pos h1, if_pos (show dEnd - (m + 1) ≤ j ∧ j < dEnd by omega)]
      rw [readSlot_set_ne buf (dEnd - 1) _ (sEnd - 1 - (dEnd - 1 - j)) (by omega)]
      have : sEnd - 1 - (dEnd - 1 - j) = sEnd - (dEnd - j) := by omega
      rw [this]
    · by_cases h2 : j = dEnd - 1
      · rw [if_neg h1, if_pos (show dEnd - (m + 1) ≤ j ∧ j < dEnd by omega)]
        rw [h2, readSlot_set_eq buf (dEnd - 1) _ (by omega)]
        have : sEnd - (dEnd - (dEnd - 1)) = sEnd - 1 := by omega
        rw [this]
      · rw [if_neg h1, if_neg (show ¬ (dEnd - (m + 1) ≤ j ∧ j < dEnd) by omega)]
        exact readSlot_set_ne buf (dEnd - 1) _ j (fun hc => h2 hc.symm)

theorem destroyElements_pure {α : Type} (s : Nat) (buf : Buf α) (n : Nat) :
    ∀ e ∈ (destroyElements s buf n).2, elemEv e = true := by
  induction n generalizing buf with
  | zero => intro e he; simp [destroyElements] at he
  | succ m ih =>
    intro e he
    simp only [destroyElements, List.mem_cons] at he
    rcases he with h | h
    · rw [h]; rfl
    · exact ih _ e h

theorem constructElems_ok {α : Type} (mvFlag : Bool) (s : Nat) (buf : Buf α)
    (i : Nat) (vals : List (Option α))
    (hsome : ∀ v ∈ vals, v.isSome = true)
    (hlen : s + i + vals.length ≤ buf.length) :
    ∃ b es, constructElems mvFlag s buf i vals = .ok (b, es) ∧
      b.length = buf.length ∧
      (∀ j, readSlot b j =
        if s + i ≤ j ∧ j < s + i + vals.length then readSlot vals (j - (s + i))
        else readSlot buf j) ∧
      (∀ e ∈ es, elemEv e = true) := by
  induction vals generalizing buf i with
  | nil =>
    refine ⟨buf, [], rfl, rfl, ?_, by intro e he; simp at he⟩
    intro j
    rw [if_neg (show ¬ (s + i ≤ j ∧ j < s + i + List.length ([] : List (Option α))) by
      simp only [List.length_nil]; omega)]
  | cons v rest ih =>
    match v, hsome v (List.mem_cons_self v rest) with
    | some w, _ =>
      obtain ⟨b, es, hres, hblen, hbr, hes⟩ :=
        ih (buf.set (s + i) (some w)) (i + 1)
          (fun v hv => hsome v (List.mem_cons_of_mem _ hv))
          (by rw [List.length_set]; simp only [List.length_cons] at hlen; omega)
      refine ⟨b, Ev.constructEv mvFlag (s + i) :: es, ?_, ?_, ?_, ?_⟩
      · show (match constructElems mvFlag s (buf.set (s + i) (some w)) (i + 1) rest with
          | .ok (b, es) => Except.ok (b, Ev.constructEv mvFlag (s + i) :: es)
          | .error (b, es) => Except.error (b, Ev.constructEv mvFlag (s + i) :: es)) = _
        rw [hres]
      · rw [hblen, List.length_set]
      · intro j
        rw [hbr j]
        by_cases h1 : s + (i + 1) ≤ j ∧ j < s + (i + 1) + rest.length
        · rw [if_pos h1, if_pos (by simp only [List.length_cons]; omega)]
          obtain ⟨k, hk⟩ : ∃ k, j - (s + i) = k + 1 := ⟨j - (s + i) - 1, by omega⟩
          rw [hk]
          have : j - (s + (i + 1)) = k := by omega
          rw [this]
          rfl
        · by_cases h2 : j = s + i
          · rw [if_neg h1, if_pos (by simp only [List.length_cons]; omega)]
            rw [h2, readSlot_set_eq buf (s + i) _ (by simp only [List.length_cons] at hlen; omega)]
            rw [Nat.sub_self]
            rfl
          · rw [if_neg h1, if_neg (by simp only [List.length_cons]; omega)]
            exact readSlot_set_ne buf (s + i) _ j (fun hc => h2 hc.symm)
      · intro e he
        rcases List.mem_cons.mp he with h | h
        · rw [h]; rfl
        · exact hes e h

theorem constructElems_error {α : Type} (mvFlag : Bool) (s : Nat) (buf : Buf α)
    (i : Nat) (vals : List (Option α)) (k : Nat)
    (hk : firstFail vals = some k)
    (hlen : s + i + k ≤ buf.length) :
    ∃ b, constructElems mvFlag s buf i vals =
        .error (b, ((List.range k).map fun t => Ev.constructEv mvFlag (s + i + t)) ++
          ((List.range (i + k)).reverse.map fun t => Ev.destroyEv (s + t))) ∧
      b.length = buf.length ∧
      (∀ j, readSlot b j = if s ≤ j ∧ j < s + (i + k) then none else readSlot buf j) := by
  induction vals generalizing buf i k with
  | nil => simp [firstFail, List.findIdx?] at hk
  | cons v rest ih =>
    cases v with
    | none =>
      have hk0 : k = 0 := by
        simp only [firstFail, Option.some.injEq] at hk
        omega
      subst hk0
      refine ⟨(destroyElements s buf i).1, ?_, destroyElements_length s buf i, ?_⟩
      · show Except.error ((destroyElements s buf i).1, (destroyElements s buf i).2) = _
        rw [destroyElements_trace]
        simp only [List.range_zero, List.map_nil, List.nil_append, Nat.add_zero]
      · intro j
        rw [readSlot_destroyElements s buf i j (by omega)]
        rw [show i + 0 = i from rfl]
    | some w =>
      obtain ⟨k', hk', hkk⟩ : ∃ k', firstFail rest = some k' ∧ k = k' + 1 := by
        simp only [firstFail] at hk
        rcases h : firstFail rest with _ | k''
        · rw [h] at hk
          simp at hk
        · rw [h] at hk
          simp only [Option.map_some'] at hk
          injection hk with hk2
          exact ⟨k'', rfl, hk2.symm⟩
      subst hkk
      obtain ⟨b, hres, hblen, hbr⟩ :=
        ih (buf.set (s + i) (some w)) (i + 1) k' hk'
          (by rw [List.length_set]; omega)
      have htr : Ev.constructEv mvFlag (s + i) ::
            (((List.range k').map fun t => Ev.constructEv mvFlag (s + (i + 1) + t)) ++
              ((List.range (i + 1 + k')).reverse.map fun t => Ev.destroyEv (s + t))) =
          ((List.range (k' + 1)).map fun t => Ev.constructEv mvFlag (s + i + t)) ++
            ((List.range (i + (k' + 1))).reverse.map fun t => Ev.destroyEv (s + t)) := by
        rw [← List.cons_append]
        have h1 : (List.range (k' + 1)).map (fun t => Ev.constructEv mvFlag (s + i + t)) =
            Ev.constructEv mvFlag (s + i) :: (List.range k').map
              (fun t => Ev.constructEv mvFlag (s + (i + 1) + t)) := by
          rw [List.range_succ_eq_map, List.map_cons, List.map_map]
          refine congrArg₂ _ (by rw [Nat.add_zero]) ?_
          refine List.map_congr_left ?_
          intro t _
          simp only [Function.comp_apply]
          congr 1
          omega
        rw [h1]
        have h2 : i + 1 + k' = i + (k' + 1) := by omega
        rw [h2]
      refine ⟨b, ?_, by rw [hblen, List.length_set], ?_⟩
      · have hstep : constructElems mvFlag s buf i (some w :: rest) =
            Except.error (b, Ev.constructEv mvFlag (s + i) ::
              (((List.range k').map fun t => Ev.constructEv mvFlag (s + (i + 1) + t)) ++
                ((List.range (i + 1 + k')).reverse.map fun t => Ev.destroyEv (s + t)))) := by
          show (match constructElems mvFlag s (buf.set (s + i) (some w)) (i + 1) rest with
            | .ok (b, es) => Except.ok (b, Ev.constructEv mvFlag (s + i) :: es)
            | .error (b, es) => Except.error (b, Ev.constructEv mvFlag (s + i) :: es)) = _
          rw [hres]
        rw [hstep, htr]
      · intro j
        rw [hbr j]
        have h2 : i + 1 + k' = i + (k' + 1) := by omega
        rw [h2]
        by_cases h1 : s ≤ j ∧ j < s + (i + (k' + 1))
        · rw [if_pos h1, if_pos h1]
        · rw [if_neg h1, if_neg h1]
          exact readSlot_set_ne buf (s + i) _ j (by omega)

theorem constructElems_pure {α : Type} (mvFlag : Bool) (s : Nat) (buf : Buf α)
    (i : Nat) (vals : List (Option α)) :
    (∀ b es, constructElems mvFlag s buf i vals = .ok (b, es) → ∀ e ∈ es, elemEv e = true) ∧
    (∀ b es, constructElems mvFlag s buf i vals = .error (b, es) → ∀ e ∈ es, elemEv e = true) := by
  induction vals generalizing buf i with
  | nil =>
    constructor
    · intro b es hres e he
      simp only [constructElems] at hres
      cases hres
      simp at he
    · intro b es hres
      simp [constructElems] at hres
  | cons v rest ih =>
    cases v with
    | none =>
      constructor
      · intro b es hres
        simp [constructElems] at hres
      · intro b es hres e he
        simp only [constructElems] at hres
        cases hres
        exact destroyElements_pure s buf i e he
    | some w =>
      constructor
      · intro b es hres e he
        simp only [constructElems] at hres
        rcases hr : constructElems mvFlag s (buf.set (s + i) (some w)) (i + 1) rest with ⟨b', es'⟩ | ⟨b', es'⟩
        · rw [hr] at hres; simp at hres
        · rw [hr] at hres
          simp only [Except.ok.injEq, Prod.mk.injEq] at hres
          rcases hres with ⟨_, hes⟩
          rw [← hes] at he
          rcases List.mem_cons.mp he with h | h
          · rw [h]; rfl
          · exact (ih (buf.set (s + i) (some w)) (i + 1)).1 b' es' hr e h
      · intro b es hres e he
        simp only [constructElems] at hres
        rcases hr : constructElems mvFlag s (buf.set (s + i) (some w)) (i + 1) rest with ⟨b', es'⟩ | ⟨b', es'⟩
        · rw [hr] at hres
          simp only [Except.error.injEq, Prod.mk.injEq] at hres
          rcases hres with ⟨_, hes⟩
          rw [← hes] at he
          rcases List.mem_cons.mp he with h | h
          · rw [h]; rfl
          · exact (ih (buf.set (s + i) (some w)) (i + 1)).2 b' es' hr e h
        · rw [hr] at hres; simp at hres

theorem assignElements_ok {α : Type} (s : Nat) (buf : Buf α)
    (vals : List (Option α))
    (hsome : ∀ v ∈ vals, v.isSome = true)
    (hlen : s + vals.length ≤ buf.length) :
    ∃ b, assignElements s buf vals = .ok b ∧
      b.length = buf.length ∧
      ∀ j, readSlot b j =
        if s ≤ j ∧ j < s + vals.length then readSlot vals (j - s)
        else readSlot buf j := by
  induction vals generalizing buf s with
  | nil =>
    refine ⟨buf, rfl, rfl, ?_⟩
    intro j
    rw [if_neg (show ¬ (s ≤ j ∧ j < s + List.length ([] : List (Option α))) by
      simp only [List.length_nil]; omega)]
  | cons v rest ih =>
    match v, hsome v (List.mem_cons_self v rest) with
    | some w, _ =>
      obtain ⟨b, hres, hblen, hbr⟩ :=
        ih (s + 1) (buf.set s (some w))
          (fun v hv => hsome v (List.mem_cons_of_mem _ hv))
          (by rw [List.length_set]; simp only [List.length_cons] at hlen; omega)
      refine ⟨b, hres, by rw [hblen, List.length_set], ?_⟩
      intro j
      rw [hbr j]
      by_cases h1 : s + 1 ≤ j ∧ j < s + 1 + rest.length
      · rw [if_pos h1, if_pos (by simp only [List.length_cons]; omega)]
        obtain ⟨k, hk⟩ : ∃ k, j - s = k + 1 := ⟨j - s - 1, by omega⟩
        rw [hk]
        have : j - (s + 1) = k := by omega
        rw [this]
        rfl
      · by_cases h2 : j = s
        · rw [if_neg h1, if_pos (by simp only [List.length_cons]; omega)]
          rw [h2, readSlot_set_eq buf s _ (by simp only [List.length_cons] at hlen; omega)]
          rw [Nat.sub_self]
          rfl
        · rw [if_neg h1, if_neg (by simp only [List.length_cons]; omega)]
          exact readSlot_set_ne buf s _ j (fun hc => h2 hc.symm)

theorem firstFail_lt {α : Type} (vals : List (Option α)) (k : Nat)
    (hk : firstFail vals = some k) : k < vals.length := by
  induction vals generalizing k with
  | nil => simp [firstFail] at hk
  | cons v rest ih =>
    cases v with
    | none =>
      simp only [firstFail, Option.some.injEq] at hk
      simp only [List.length_cons]
      omega
    | some w =>
      simp only [firstFail] at hk
      rcases h : firstFail rest with _ | k''
      · rw [h] at hk; simp at hk
      · rw [h] at hk
        simp only [Option.map_some'] at hk
        injection hk with hk2
        have := ih k'' h
        simp only [List.length_cons]
        omega

theorem constructElements_ok {α : Type} (mvFlag : Bool) (s : Nat) (buf : Buf α)
    (vals : List (Option α))
    (hsome : ∀ v ∈ vals, v.isSome = true)
    (hlen : s + vals.length ≤ buf.length) :
    ∃ b es, constructElements mvFlag s buf vals = .ok (b, es) ∧
      b.length = buf.length ∧
      (∀ j, readSlot b j =
        if s ≤ j ∧ j < s + vals.length then readSlot vals (j - s)
        else readSlot buf j) ∧
      (∀ e ∈ es, elemEv e = true) := by
  obtain ⟨b, es, hres, hblen, hbr, hes⟩ :=
    constructElems_ok mvFlag s buf 0 vals hsome (by omega)
  refine ⟨b, es, hres, hblen, ?_, hes⟩
  intro j
  have := hbr j
  rw [show s + 0 = s by omega] at this
  exact this

theorem constructElements_err {α : Type} (mvFlag : Bool) (s : Nat) (buf : Buf α)
    (vals : List (Option α)) (k : Nat)
    (hk : firstFail vals = some k)
    (hlen : s + k ≤ buf.length) :
    ∃ b, constructElements mvFlag s buf vals =
        .error (b, ((List.range k).map fun t => Ev.constructEv mvFlag (s + t)) ++
          ((List.range k).reverse.map fun t => Ev.destroyEv (s + t))) ∧
      b.length = buf.length ∧
      (∀ j, readSlot b j = if s ≤ j ∧ j < s + k then none else readSlot buf j) := by
  obtain ⟨b, hres, hblen, hbr⟩ :=
    constructElems_error mvFlag s buf 0 vals k hk (by omega)
  refine ⟨b, ?_, hblen, ?_⟩
  · show constructElems mvFlag s buf 0 vals = _
    rw [hres]
    refine congrArg _ (congrArg₂ _ rfl (congrArg₂ _ ?_ ?_))
    · refine List.map_congr_left ?_
      intro t _
      rw [show s + 0 + t = s + t by omega]
    · rw [show (0 : Nat) + k = k by omega]
  · intro j
    have := hbr j
    rw [show (0 : Nat) + k = k by omega] at this
    exact this

theorem WF.buflen {α : Type} {N : Nat} {st : St α} (h : WF N st) :
    (getBuf st).length = cap N st := h.1

theorem WF.bit {α : Type} {N : Nat} {st : St α} (h : WF N st) :
    getIsAllocated st = dataIsAlloc st.data := h.2.1

theorem WF.size_le {α : Type} {N : Nat} {st : St α} (h : WF N st) :
    getSize st ≤ cap N st := h.2.2.1

theorem WF.live_isSome {α : Type} {N : Nat} {st : St α} (h : WF N st) :
    ∀ j < getSize st, (readSlot (getBuf st) j).isSome = true := by
  intro j hj
  have := h.2.2.2 j (lt_of_lt_of_le hj h.size_le)
  rw [this]
  simp [hj]

theorem WF.dead_none {α : Type} {N : Nat} {st : St α} (h : WF N st) :
    ∀ j, getSize st ≤ j → readSlot (getBuf st) j = none := by
  intro j hj
  by_cases hc : j < cap N st
  · have := h.2.2.2 j hc
    rw [show decide (j < getSize st) = false by simp; omega] at this
    exact Option.not_isSome_iff_eq_none.mp (by rw [this]; simp)
  · exact readSlot_eq_none_of_le _ j (by rw [h.buflen]; omega)

theorem WF_emptySt {α : Type} (N : Nat) : WF N (emptySt α N) := by
  refine ⟨by simp [emptySt, getBuf, cap], rfl, by simp [emptySt, getSize, cap, getBuf], ?_⟩
  intro j hj
  simp [emptySt, getBuf, getSize, readSlot_replicate_none]

/-! ### Accessor lemmas -/

theorem getBuf_setBuf {α : Type} (st : St α) (b : Buf α) :
    getBuf (setBuf st b) = b := by
  rcases st with ⟨w, d⟩
  cases d <;> rfl

theorem word_setBuf {α : Type} (st : St α) (b : Buf α) :
    (setBuf st b).word = st.word := by
  rcases st with ⟨w, d⟩
  cases d <;> rfl

theorem cap_setBuf {α : Type} (N : Nat) (st : St α) (b : Buf α) :
    cap N (setBuf st b) = cap N st := by
  rcases st with ⟨w, d⟩
  cases d <;> rfl

theorem dataIsAlloc_setBuf {α : Type} (st : St α) (b : Buf α) :
    dataIsAlloc (setBuf st b).data = dataIsAlloc st.data := by
  rcases st with ⟨w, d⟩
  cases d <;> rfl

theorem getSize_addSize {α : Type} (st : St α) (k : Nat) :
    getSize (addSize st k) = getSize st + k := by
  simp only [getSize, addSize]
  omega

theorem getIsAllocated_addSize {α : Type} (st : St α) (k : Nat) :
    getIsAllocated (addSize st k) = getIsAllocated st := by
  simp only [getIsAllocated, addSize]
  have : (st.word + 2 * k) % 2 = st.word % 2 := by omega
  rw [this]

theorem getSize_setIsAllocated {α : Type} (st : St α) :
    getSize (setIsAllocated st) = getSize st := by
  simp only [getSize, setIsAllocated]
  omega

theorem getIsAllocated_setIsAllocated {α : Type} (st : St α) :
    getIsAllocated (setIsAllocated st) = true := by
  simp only [getIsAllocated, setIsAllocated]
  have : (2 * (st.word / 2) + 1) % 2 = 1 := by omega
  rw [this]
  rfl

theorem getSize_setSize {α : Type} (st : St α) (n : Nat) :
    getSize (setSize st n) = n := by
  simp only [getSize, setSize]
  omega

theorem getIsAllocated_setSize {α : Type} (st : St α) (n : Nat) :
    getIsAllocated (setSize st n) = getIsAllocated st := by
  simp only [getIsAllocated, setSize]
  have : (2 * n + st.word % 2) % 2 = st.word % 2 := by omega
  rw [this]

theorem getSize_subtractSize {α : Type} (st : St α) (k : Nat)
    (h : k ≤ getSize st) : getSize (subtractSize st k) = getSize st - k := by
  simp only [getSize, subtractSize] at *
  omega

theorem getIsAllocated_subtractSize {α : Type} (st : St α) (k : Nat)
    (h : k ≤ getSize st) : getIsAllocated (subtractSize st k) = getIsAllocated st := by
  simp only [getIsAllocated, subtractSize, getSize] at *
  have : (st.word - 2 * k) % 2 = st.word % 2 := by omega
  rw [this]

theorem getSize_unsetIsAllocated {α : Type} (st : St α) :
    getSize (unsetIsAllocated st) = getSize st := by
  simp only [getSize, unsetIsAllocated]
  omega

theorem getIsAllocated_unsetIsAllocated {α : Type} (st : St α) :
    getIsAllocated (unsetIsAllocated st) = false := by
  simp only [getIsAllocated, unsetIsAllocated]
  have : 2 * (st.word / 2) % 2 = 0 := by omega
  rw [this]
  rfl

theorem word_eq_zero_of_empty {α : Type} (st : St α)
    (hsz : getSize st = 0) (hal : getIsAllocated st = false) : st.word = 0 := by
  simp only [getSize] at hsz
  simp only [getIsAllocated, beq_iff_eq] at hal
  have : st.word % 2 = 0 := by
    rcases Nat.mod_two_eq_zero_or_one st.word with h | h
    · exact h
    · exact absurd h (by simpa using hal)
  omega

theorem data_inl_of_not_alloc {α : Type} {N : Nat} {st : St α} (hwf : WF N st)
    (hal : getIsAllocated st = false) : ∃ slots, st.data = Data.inl slots := by
  have hb := hwf.bit
  rw [hal] at hb
  rcases st with ⟨w, d⟩
  cases d with
  | inl slots => exact ⟨slots, rfl⟩
  | alloc i c slots => simp [dataIsAlloc] at hb

theorem data_alloc_of_alloc {α : Type} {N : Nat} {st : St α} (hwf : WF N st)
    (hal : getIsAllocated st = true) : ∃ i c slots, st.data = Data.alloc i c slots := by
  have hb := hwf.bit
  rw [hal] at hb
  rcases st with ⟨w, d⟩
  cases d with
  | inl slots => simp [dataIsAlloc] at hb
  | alloc i c slots => exact ⟨i, c, slots, rfl⟩

theorem getBuf_of_inl {α : Type} (st : St α) (slots : Buf α)
    (h : st.data = Data.inl slots) : getBuf st = slots := by
  rcases st with ⟨w, d⟩
  have h2 : d = Data.inl slots := h
  subst h2
  rfl

theorem getBuf_of_alloc {α : Type} (st : St α) (i c : Nat) (slots : Buf α)
    (h : st.data = Data.alloc i c slots) : getBuf st = slots := by
  rcases st with ⟨w, d⟩
  have h2 : d = Data.alloc i c slots := h
  subst h2
  rfl

theorem cap_of_inl {α : Type} (N : Nat) (st : St α) (slots : Buf α)
    (h : st.data = Data.inl slots) : cap N st = N := by
  rcases st with ⟨w, d⟩
  have h2 : d = Data.inl slots := h
  subst h2
  rfl

theorem cap_of_alloc {α : Type} (N : Nat) (st : St α) (i c : Nat) (slots : Buf α)
    (h : st.data = Data.alloc i c slots) : cap N st = c := by
  rcases st with ⟨w, d⟩
  have h2 : d = Data.alloc i c slots := h
  subst h2
  rfl

theorem allocdIds_append (a b : List Ev) :
    allocdIds (a ++ b) = allocdIds a ++ allocdIds b := by
  simp [allocdIds, List.filterMap_append]

theorem deallocdIds_append (a b : List Ev) :
    deallocdIds (a ++ b) = deallocdIds a ++ deallocdIds b := by
  simp [deallocdIds, List.filterMap_append]

theorem allocdIds_cons_allocEv (id c : Nat) (es : List Ev) :
    allocdIds (Ev.allocEv id c :: es) = id :: allocdIds es := rfl

theorem allocdIds_cons_deallocEv (id c : Nat) (es : List Ev) :
    allocdIds (Ev.deallocEv id c :: es) = allocdIds es := rfl

theorem allocdIds_cons_constructEv (m : Bool) (i : Nat) (es : List Ev) :
    allocdIds (Ev.constructEv m i :: es) = allocdIds es := rfl

theorem allocdIds_cons_destroyEv (i : Nat) (es : List Ev) :
    allocdIds (Ev.destroyEv i :: es) = allocdIds es := rfl

theorem deallocdIds_cons_allocEv (id c : Nat) (es : List Ev) :
    deallocdIds (Ev.allocEv id c :: es) = deallocdIds es := rfl

theorem deallocdIds_cons_deallocEv (id c : Nat) (es : List Ev) :
    deallocdIds (Ev.deallocEv id c :: es) = id :: deallocdIds es := rfl

theorem deallocdIds_cons_constructEv (m : Bool) (i : Nat) (es : List Ev) :
    deallocdIds (Ev.constructEv m i :: es) = deallocdIds es := rfl

theorem deallocdIds_cons_destroyEv (i : Nat) (es : List Ev) :
    deallocdIds (Ev.destroyEv i :: es) = deallocdIds es := rfl

theorem allocdIds_nil_of_pure (es : List Ev) (h : ∀ e ∈ es, elemEv e = true) :
    allocdIds es = [] := by
  induction es with
  | nil => rfl
  | cons e rest ih =>
    have he := h e (List.mem_cons_self e rest)
    have hr := ih (fun e' h' => h e' (List.mem_cons_of_mem _ h'))
    cases e with
    | allocEv id c => simp [elemEv] at he
    | deallocEv id c => simp [elemEv] at he
    | constructEv m i => rw [allocdIds_cons_constructEv, hr]
    | destroyEv i => rw [allocdIds_cons_destroyEv, hr]

theorem deallocdIds_nil_of_pure (es : List Ev) (h : ∀ e ∈ es, elemEv e = true) :
    deallocdIds es = [] := by
  induction es with
  | nil => rfl
  | cons e rest ih =>
    have he := h e (List.mem_cons_self e rest)
    have hr := ih (fun e' h' => h e' (List.mem_cons_of_mem _ h'))
    cases e with
    | allocEv id c => simp [elemEv] at he
    | deallocEv id c => simp [elemEv] at he
    | constructEv m i => rw [deallocdIds_cons_constructEv, hr]
    | destroyEv i => rw [deallocdIds_cons_destroyEv, hr]

/-! ## Claim theorems -/

/-- C3: the capacity chosen when a reallocation is required,
`ComputeCapacity(current, requested)`, equals `max(current * 2, requested)`:
it is at least double the current capacity and at least large enough for
the immediate request. -/
theorem computeCapacity_spec (c r : Nat) :
    computeCapacity c r = max (c * 2) r ∧
    c * 2 ≤ computeCapacity c r ∧ r ≤ computeCapacity c r :=
  ⟨rfl, le_max_left _ _, le_max_right _ _⟩

/-- C4: if `ConstructElements` fails at element `k` (`firstFail vals =
some k`) over an initially element-free destination range, then the
elements `[0, k)` constructed by this call are destroyed in reverse index
order (the trace ends `destroy (s+k-1), ..., destroy s`) before the
failure propagates, and the destination buffer is returned exactly as it
started: no live elements. -/
theorem constructElements_failure_rollback {α : Type} (mvFlag : Bool) (s : Nat)
    (buf : Buf α) (vals : List (Option α)) (k : Nat)
    (hk : firstFail vals = some k)
    (hlen : s + vals.length ≤ buf.length)
    (hclean : ∀ j, s ≤ j → j < s + vals.length → readSlot buf j = none) :
    constructElements mvFlag s buf vals =
      .error (buf, ((List.range k).map fun t => Ev.constructEv mvFlag (s + t)) ++
        ((List.range k).reverse.map fun t => Ev.destroyEv (s + t))) := by
  have hklt := firstFail_lt vals k hk
  obtain ⟨b, hres, hblen, hbr⟩ := constructElements_err mvFlag s buf vals k hk (by omega)
  have hb : b = buf := by
    refine buf_ext b buf hblen ?_
    intro j
    rw [hbr j]
    by_cases h1 : s ≤ j ∧ j < s + k
    · rw [if_pos h1, (hclean j h1.1 (by omega))]
    · rw [if_neg h1]
  rw [hb] at hres
  exact hres

/-- Witness for C4 at a concrete input: source `[3, 4, throw]` into a
clean 3-slot range fails at element 2; elements 1 then 0 are destroyed
and the buffer is unchanged. -/
theorem constructElements_failure_rollback_witness :
    firstFail [some 3, some 4, (none : Option Nat)] = some 2 ∧
    constructElements false 0 ([none, none, none] : Buf Nat)
        [some 3, some 4, none] =
      .error ([none, none, none],
        [Ev.constructEv false 0, Ev.constructEv false 1,
          Ev.destroyEv 1, Ev.destroyEv 0]) := by
  refine ⟨rfl, ?_⟩
  rw [constructElements_failure_rollback false 0 ([none, none, none] : Buf Nat)
    [some 3, some 4, none] 2 rfl (by decide)
    (fun j _ h3 => by
      have hj : j < 3 := by simpa using h3
      interval_cases j <;> rfl)]
  rfl

theorem firstFail_none {α : Type} (vals : List (Option α))
    (h : firstFail vals = none) : ∀ v ∈ vals, v.isSome = true := by
  induction vals with
  | nil => intro v hv; simp at hv
  | cons v rest ih =>
    cases v with
    | none => simp [firstFail] at h
    | some w =>
      intro u hu
      rcases List.mem_cons.mp hu with h1 | h1
      · rw [h1]; rfl
      · simp only [firstFail, Option.map_eq_none'] at h
        exact ih h u h1

/-- `constructElements` succeeds or fails according to `firstFail`. -/
theorem constructElements_error_firstFail {α : Type} (mvFlag : Bool) (s : Nat)
    (buf : Buf α) (vals : List (Option α)) (b : Buf α) (es : List Ev)
    (hres : constructElements mvFlag s buf vals = .error (b, es))
    (hlen : s + vals.length ≤ buf.length) :
    ∃ k, firstFail vals = some k := by
  rcases hff : firstFail vals with _ | k
  · obtain ⟨b', es', hok, _, _, _⟩ :=
      constructElements_ok mvFlag s buf vals (firstFail_none vals hff) hlen
    rw [hok] at hres
    simp at hres
  · exact ⟨k, rfl⟩

/-- C1 (counterexample to the claim as stated): with `N = 1`, initializing
a fresh empty Storage with two elements whose construction throws
immediately, the failure propagates out of `Initialize` with the Storage
still *allocated*: the `is_allocated` bit is set and the Storage holds
the just-allocated heap buffer (id 0, capacity 2).  `Initialize` uses no
transaction guard; the buffer is released only later, by `~Storage()`. -/
theorem initSt_failure_allocated_at_throw :
    initSt 1 (emptySt Nat 1) 0 [none, none] 2 =
      .error (⟨1, Data.alloc 0 2 [none, none]⟩, 1, [Ev.allocEv 0 2]) ∧
    getIsAllocated (⟨1, Data.alloc 0 2 ([none, none] : Buf Nat)⟩ : St Nat) = true ∧
    dataIsAlloc (⟨1, Data.alloc 0 2 ([none, none] : Buf Nat)⟩ : St Nat).data = true := by
  refine ⟨by decide, rfl, rfl⟩

/-- C1 (amended): if element construction fails during
`Initialize(values, new_size)` on a freshly constructed empty Storage,
then when the failure propagates the Storage has size 0 and no live
element (the partially constructed elements were destroyed by
`ConstructElements`' rollback); on the heap path it still holds the new
buffer with `is_allocated` set, and the teardown that `~Storage()` then
performs destroys nothing further and deallocates every buffer the call
allocated, so nothing is leaked. -/
theorem initSt_failure_cleanup {α : Type} (N : Nat) (st : St α) (fresh : Nat)
    (vals : List (Option α)) (newSize : Nat) (stE : St α) (fr : Nat) (tr : List Ev)
    (hwf : WF N st) (hsz : getSize st = 0) (hal : getIsAllocated st = false)
    (hres : initSt N st fresh vals newSize = .error (stE, fr, tr)) :
    getSize stE = 0 ∧ (∀ j, readSlot (getBuf stE) j = none) ∧
      NoLeak (tr ++ destructorEvents stE) := by
  have hw0 : st.word = 0 := word_eq_zero_of_empty st hsz hal
  by_cases hN : newSize > N
  · -- heap path
    simp only [initSt, if_pos hN] at hres
    rcases hcf : constructElements false 0
        (List.replicate (computeCapacity N newSize) (none : Option α))
        (vals.take newSize) with ⟨b, es⟩ | ⟨b, es⟩
    · rw [hcf] at hres
      simp only [Except.error.injEq, Prod.mk.injEq] at hres
      obtain ⟨hstE, hfr, htr⟩ := hres
      obtain ⟨k, hk⟩ := constructElements_error_firstFail false 0 _ _ b es hcf
        (by
          rw [List.length_replicate]
          have h1 : (vals.take newSize).length ≤ newSize := by
            rw [List.length_take]; omega
          have h2 := le_computeCapacity_right N newSize
          omega)
      have hklt := firstFail_lt _ k hk
      obtain ⟨b', herr, hblen, hbr⟩ := constructElements_err false 0
        (List.replicate (computeCapacity N newSize) (none : Option α))
        (vals.take newSize) k hk
        (by
          rw [List.length_replicate]
          have h1 : (vals.take newSize).length ≤ newSize := by
            rw [List.length_take]; omega
          have h2 := le_computeCapacity_right N newSize
          omega)
      rw [hcf] at herr
      simp only [Except.error.injEq, Prod.mk.injEq] at herr
      obtain ⟨hb', _⟩ := herr
      have hword : stE.word = 2 * (st.word / 2) + 1 := by
        rw [← hstE, word_setBuf]; rfl
      have hdata : stE.data = Data.alloc fresh (computeCapacity N newSize) b := by
        rw [← hstE]; rfl
      have hsz0 : getSize stE = 0 := by
        show stE.word / 2 = 0
        rw [hword]
        omega
      have hdes : destructorEvents stE = [Ev.deallocEv fresh (computeCapacity N newSize)] := by
        simp only [destructorEvents]
        rw [if_neg (by rw [hword]; omega), hsz0, hdata]
        rfl
      refine ⟨hsz0, ?_, ?_⟩
      · intro j
        rw [← hstE, getBuf_setBuf, hb', hbr j]
        by_cases h1 : 0 ≤ j ∧ j < 0 + k
        · rw [if_pos h1]
        · rw [if_neg h1, readSlot_replicate_none]
      · intro i hi
        have hpure := (constructElems_pure false 0
          (List.replicate (computeCapacity N newSize) (none : Option α)) 0
          (vals.take newSize)).2 b es hcf
        have hesnil : allocdIds es = [] := allocdIds_nil_of_pure es hpure
        rw [allocdIds_append, ← htr, allocdIds_cons_allocEv, hesnil, hdes] at hi
        rw [show allocdIds [Ev.deallocEv fresh (computeCapacity N newSize)] = [] from rfl] at hi
        simp at hi
        subst hi
        rw [deallocdIds_append, hdes]
        refine List.mem_append_right _ ?_
        rw [deallocdIds_cons_deallocEv]
        exact List.mem_cons_self _ _
    · rw [hcf] at hres
      simp at hres
  · -- inline path
    have hcapN : cap N st = N := by
      obtain ⟨slots, hd⟩ := data_inl_of_not_alloc hwf hal
      exact cap_of_inl N st slots hd
    simp only [initSt, if_neg hN] at hres
    rcases hcf : constructElements false 0 (getBuf st) (vals.take newSize)
      with ⟨b, es⟩ | ⟨b, es⟩
    · rw [hcf] at hres
      simp only [Except.error.injEq, Prod.mk.injEq] at hres
      obtain ⟨hstE, hfr, htr⟩ := hres
      obtain ⟨k, hk⟩ := constructElements_error_firstFail false 0 _ _ b es hcf
        (by
          rw [hwf.buflen, hcapN]
          have h1 : (vals.take newSize).length ≤ newSize := by
            rw [List.length_take]; omega
          omega)
      have hklt := firstFail_lt _ k hk
      obtain ⟨b', herr, hblen, hbr⟩ := constructElements_err false 0
        (getBuf st) (vals.take newSize) k hk
        (by
          rw [hwf.buflen, hcapN]
          have h1 : (vals.take newSize).length ≤ newSize := by
            rw [List.length_take]; omega
          omega)
      rw [hcf] at herr
      simp only [Except.error.injEq, Prod.mk.injEq] at herr
      obtain ⟨hb', _⟩ := herr
      refine ⟨?_, ?_, ?_⟩
      · rw [← hstE]
        show (setBuf st b).word / 2 = 0
        rw [word_setBuf, hw0]
      · intro j
        rw [← hstE, getBuf_setBuf, hb', hbr j]
        by_cases h1 : 0 ≤ j ∧ j < 0 + k
        · rw [if_pos h1]
        · rw [if_neg h1]
          exact hwf.dead_none j (by omega)
      · intro i hi
        have hpure := (constructElems_pure false 0 (getBuf st) 0 (vals.take newSize)).2 b es hcf
        rw [allocdIds_append, ← htr] at hi
        rw [allocdIds_nil_of_pure es hpure] at hi
        have hdes : stE.word = 0 := by
          rw [← hstE, word_setBuf, hw0]
        rw [destructorEvents, if_pos hdes] at hi
        simp [allocdIds] at hi
    · rw [hcf] at hres
      simp at hres

/-- Witness for the amended C1 at the concrete failing input of the
counterexample. -/
theorem initSt_failure_cleanup_witness :
    WF 1 (emptySt Nat 1) ∧
    (getSize (⟨1, Data.alloc 0 2 [none, none]⟩ : St Nat) = 0 ∧
      (∀ j, readSlot (getBuf (⟨1, Data.alloc 0 2 ([none, none] : Buf Nat)⟩ : St Nat)) j = none) ∧
      NoLeak ([Ev.allocEv 0 2] ++
        destructorEvents (⟨1, Data.alloc 0 2 ([none, none] : Buf Nat)⟩ : St Nat))) :=
  ⟨by decide, initSt_failure_cleanup 1 (emptySt Nat 1) 0 [none, none] 2
    ⟨1, Data.alloc 0 2 [none, none]⟩ 1 [Ev.allocEv 0 2]
    (by decide) (by decide) (by decide) (by decide)⟩

/-- C2: on a full Storage (`size == capacity`), `EmplaceBack` takes the
slow path, which would construct the new element into the new buffer
before moving anything; if the new element's construction fails, the
Storage is returned exactly as it was (size, capacity, layout, element
values), the trace is exactly an allocation of the doubled-capacity
buffer followed by its deallocation — no element was constructed, moved
or destroyed, and the new buffer is not leaked. -/
theorem emplaceBack_full_newelem_failure {α : Type} (N : Nat) (mv : α → Option α)
    (st : St α) (fresh : Nat) (hsz : getSize st = cap N st) :
    emplaceBackSt N mv st fresh none =
      .error (st, fresh + 1,
        [Ev.allocEv fresh (nextCapacity (cap N st)),
          Ev.deallocEv fresh (nextCapacity (cap N st))]) := by
  rw [emplaceBackSt, if_neg (by simp [hsz])]
  rfl

/-- Witness for C2: a full inline Storage (`N = 1`, one element). -/
theorem emplaceBack_full_newelem_failure_witness :
    getSize (⟨2, Data.inl [some 5]⟩ : St Nat) = cap 1 (⟨2, Data.inl [some 5]⟩ : St Nat) ∧
    emplaceBackSt 1 Option.some (⟨2, Data.inl [some 5]⟩ : St Nat) 7 none =
      .error (⟨2, Data.inl [some 5]⟩,
        8, [Ev.allocEv 7 2, Ev.deallocEv 7 2]) :=
  ⟨by decide, by
    rw [emplaceBack_full_newelem_failure 1 Option.some (⟨2, Data.inl [some 5]⟩ : St Nat) 7
      (by decide)]
    rfl⟩

/-- C10: on the `EmplaceBackSlow` path (full Storage), if the new element
is constructed successfully but moving the existing elements into the new
buffer then fails, then the failure propagates with the Storage exactly
as before the call (size, capacity, layout, old buffer untouched in the
value model), the newly constructed element is destroyed (`destroy` at
slot `size` of the new buffer), and the newly allocated buffer is
deallocated — nothing leaks. -/
theorem emplaceBackSlow_move_failure {α : Type} (N : Nat) (mv : α → Option α)
    (st : St α) (fresh : Nat) (v : α) (k : Nat)
    (hwf : WF N st) (hsz : getSize st = cap N st)
    (hfail : firstFail (moveList mv (getBuf st) (getSize st)) = some k) :
    ∃ tr, emplaceBackSt N mv st fresh (some v) = .error (st, fresh + 1, tr) ∧
      Ev.destroyEv (getSize st) ∈ tr ∧
      Ev.deallocEv fresh (nextCapacity (cap N st)) ∈ tr ∧
      NoLeak tr := by
  have hklt := firstFail_lt _ k hfail
  have hmlen : (moveList mv (getBuf st) (getSize st)).length = getSize st := by
    simp [moveList]
  rw [emplaceBackSt, if_neg (by simp [hsz])]
  simp only [emplaceBackSlowSt]
  rcases hcf : constructElements true 0
      ((List.replicate (nextCapacity (cap N st)) (none : Option α)).set (getSize st) (some v))
      (moveList mv (getBuf st) (getSize st)) with ⟨b, es⟩ | ⟨b, es⟩
  · refine ⟨_, rfl, ?_, ?_, ?_⟩
    · refine List.mem_cons_of_mem _ (List.mem_cons_of_mem _ (List.mem_append_right _ ?_))
      exact List.mem_cons_self _ _
    · refine List.mem_cons_of_mem _ (List.mem_cons_of_mem _ (List.mem_append_right _ ?_))
      exact List.mem_cons_of_mem _ (List.mem_cons_self _ _)
    · intro i hi
      have hpure := (constructElems_pure true 0
        ((List.replicate (nextCapacity (cap N st)) (none : Option α)).set (getSize st) (some v))
        0 (moveList mv (getBuf st) (getSize st))).2 b es hcf
      rw [allocdIds_cons_allocEv, allocdIds_cons_constructEv, allocdIds_append,
        allocdIds_nil_of_pure es hpure] at hi
      rw [show allocdIds [Ev.destroyEv (getSize st),
        Ev.deallocEv fresh (nextCapacity (cap N st))] = [] from rfl] at hi
      simp at hi
      rw [hi]
      rw [deallocdIds_cons_allocEv, deallocdIds_cons_constructEv, deallocdIds_append,
        deallocdIds_nil_of_pure es hpure]
      rw [show deallocdIds [Ev.destroyEv (getSize st),
        Ev.deallocEv fresh (nextCapacity (cap N st))] = [fresh] from rfl]
      exact List.mem_append_right _ (List.mem_cons_self _ _)
  · exfalso
    obtain ⟨b', herr, _, _⟩ := constructElements_err true 0
      ((List.replicate (nextCapacity (cap N st)) (none : Option α)).set (getSize st) (some v))
      (moveList mv (getBuf st) (getSize st)) k hfail
      (by
        rw [List.length_set, List.length_replicate]
        have := hwf.size_le
        simp only [nextCapacity]
        omega)
    rw [hcf] at herr
    simp at herr

/-- Witness for C10: one allocated element whose move constructor throws
(`mv 7 = none`). -/
theorem emplaceBackSlow_move_failure_witness :
    WF 1 (⟨3, Data.alloc 0 1 [some 7]⟩ : St Nat) ∧
    (∃ tr, emplaceBackSt 1 (fun n => if n = 7 then none else some n)
        (⟨3, Data.alloc 0 1 [some 7]⟩ : St Nat) 5 (some 9) =
        .error (⟨3, Data.alloc 0 1 [some 7]⟩, 6, tr) ∧
      Ev.destroyEv (getSize (⟨3, Data.alloc 0 1 [some 7]⟩ : St Nat)) ∈ tr ∧
      Ev.deallocEv 5 (nextCapacity (cap 1 (⟨3, Data.alloc 0 1 [some 7]⟩ : St Nat))) ∈ tr ∧
      NoLeak tr) :=
  ⟨by decide, emplaceBackSlow_move_failure 1 (fun n => if n = 7 then none else some n)
    (⟨3, Data.alloc 0 1 [some 7]⟩ : St Nat) 5 9 0
    (by decide) (by decide) (by decide)⟩

theorem destroyEv_mem_trace {α : Type} (s : Nat) (buf : Buf α) (n j : Nat)
    (hj : j < n) : Ev.destroyEv (s + j) ∈ (destroyElements s buf n).2 := by
  rw [destroyElements_trace]
  refine List.mem_map.mpr ⟨j, ?_, rfl⟩
  rw [List.mem_reverse]
  exact List.mem_range.mpr hj

theorem liveList_congr {α : Type} (st' st : St α)
    (hsz : getSize st' = getSize st)
    (h : ∀ j < getSize st, readSlot (getBuf st') j = readSlot (getBuf st) j) :
    liveList st' = liveList st := by
  unfold liveList
  rw [hsz]
  exact List.map_congr_left (fun a ha => h a (List.mem_range.mp ha))

/-- C5 (counterexample to the claim as stated): with `N = 1`, an
allocated Storage whose size equals its allocated capacity (size 2,
capacity 2 — e.g. the result of an earlier `ShrinkToFit`).  Here
`size > N`, so the claim says `shrink_to_fit` reallocates to a buffer of
capacity exactly `size` and releases the old buffer; the code instead
returns early (`size == capacity`), performing no allocation and no
deallocation and keeping the same buffer. -/
theorem shrinkToFit_noop_at_full_capacity :
    WF 1 (⟨5, Data.alloc 0 2 [some 8, some 9]⟩ : St Nat) ∧
    shrinkToFitSt 1 (⟨5, Data.alloc 0 2 [some 8, some 9]⟩ : St Nat) 7 =
      ((⟨5, Data.alloc 0 2 [some 8, some 9]⟩ : St Nat), 7, ([] : List Ev)) ∧
    1 < getSize (⟨5, Data.alloc 0 2 [some 8, some 9]⟩ : St Nat) ∧
    ¬ Ev.deallocEv 0 2 ∈ (shrinkToFitSt 1 (⟨5, Data.alloc 0 2 [some 8, some 9]⟩ : St Nat) 7).2.2 := by
  decide

/-- C5 (amended): for an allocated Storage, `ShrinkToFit` is a no-op when
`size == capacity`; when `size < capacity` it moves the elements back
into the inline buffer and releases the heap buffer if `size ≤ N`, and
otherwise moves them into a newly allocated buffer of capacity exactly
`size` and releases the old buffer — in both cases preserving the element
values in order. -/
theorem shrinkToFit_spec {α : Type} (N : Nat) (st : St α) (fresh oid ocap : Nat)
    (oslots : Buf α) (hwf : WF N st) (hd : st.data = Data.alloc oid ocap oslots) :
    (getSize st = ocap → shrinkToFitSt N st fresh = (st, fresh, [])) ∧
    (getSize st < ocap → getSize st ≤ N →
      getIsAllocated (shrinkToFitSt N st fresh).1 = false ∧
      cap N (shrinkToFitSt N st fresh).1 = N ∧
      liveList (shrinkToFitSt N st fresh).1 = liveList st ∧
      Ev.deallocEv oid ocap ∈ (shrinkToFitSt N st fresh).2.2 ∧
      allocdIds (shrinkToFitSt N st fresh).2.2 = []) ∧
    (getSize st < ocap → N < getSize st →
      getIsAllocated (shrinkToFitSt N st fresh).1 = true ∧
      cap N (shrinkToFitSt N st fresh).1 = getSize st ∧
      (∃ b, (shrinkToFitSt N st fresh).1.data = Data.alloc fresh (getSize st) b) ∧
      liveList (shrinkToFitSt N st fresh).1 = liveList st ∧
      Ev.allocEv fresh (getSize st) ∈ (shrinkToFitSt N st fresh).2.2 ∧
      Ev.deallocEv oid ocap ∈ (shrinkToFitSt N st fresh).2.2) := by
  have hbit : getIsAllocated st = true := by
    rw [hwf.bit, hd]
    rfl
  rcases st with ⟨w, d⟩
  have hd2 : d = Data.alloc oid ocap oslots := hd
  subst hd2
  simp only [shrinkToFitSt]
  refine ⟨?_, ?_, ?_⟩
  · intro heq
    rw [if_pos heq]
  · intro hlt hle
    rw [if_neg (by omega), if_neg (by omega)]
    refine ⟨getIsAllocated_unsetIsAllocated _, rfl, ?_, ?_, ?_⟩
    · refine liveList_congr _ _ (by
        show 2 * (w / 2) / 2 = w / 2
        omega) ?_
      intro j hj
      show readSlot (copyAcross oslots 0 (List.replicate N none) 0
        (getSize (⟨w, Data.alloc oid ocap oslots⟩ : St α))) j = readSlot oslots j
      rw [readSlot_copyAcross oslots 0 _ 0 _ (by rw [List.length_replicate]; omega) j]
      rw [if_pos (by exact ⟨by omega, by omega⟩)]
      rw [show 0 + (j - 0) = j by omega]
    · exact List.mem_append_right _ (List.mem_cons_self _ _)
    · rw [allocdIds_append]
      rw [allocdIds_nil_of_pure _ (destroyElements_pure 0 oslots _)]
      rfl
  · intro hlt hgt
    rw [if_neg (by omega), if_pos (by omega)]
    refine ⟨hbit, rfl, ⟨_, rfl⟩, ?_, List.mem_cons_self _ _, ?_⟩
    · refine liveList_congr _ _ rfl ?_
      intro j hj
      show readSlot (copyAcross oslots 0 (List.replicate _ none) 0 _) j = readSlot oslots j
      rw [readSlot_copyAcross oslots 0 _ 0 _ (by rw [List.length_replicate]; omega) j]
      rw [if_pos (by exact ⟨by omega, by omega⟩)]
      rw [show 0 + (j - 0) = j by omega]
    · refine List.mem_cons_of_mem _ (List.mem_append_right _ (List.mem_cons_self _ _))

/-- Witness for the amended C5: size 2, capacity 3, `N = 1` — the
reallocate-to-exactly-size branch. -/
theorem shrinkToFit_spec_witness :
    WF 1 (⟨5, Data.alloc 0 3 [some 8, some 9, none]⟩ : St Nat) ∧
    ((getSize (⟨5, Data.alloc 0 3 [some 8, some 9, none]⟩ : St Nat) = 3 →
      shrinkToFitSt 1 (⟨5, Data.alloc 0 3 [some 8, some 9, none]⟩ : St Nat) 7 =
        (⟨5, Data.alloc 0 3 [some 8, some 9, none]⟩, 7, [])) ∧
    (getSize (⟨5, Data.alloc 0 3 [some 8, some 9, none]⟩ : St Nat) < 3 →
      getSize (⟨5, Data.alloc 0 3 [some 8, some 9, none]⟩ : St Nat) ≤ 1 →
      getIsAllocated (shrinkToFitSt 1 (⟨5, Data.alloc 0 3 [some 8, some 9, none]⟩ : St Nat) 7).1 = false ∧
      cap 1 (shrinkToFitSt 1 (⟨5, Data.alloc 0 3 [some 8, some 9, none]⟩ : St Nat) 7).1 = 1 ∧
      liveList (shrinkToFitSt 1 (⟨5, Data.alloc 0 3 [some 8, some 9, none]⟩ : St Nat) 7).1 =
        liveList (⟨5, Data.alloc 0 3 [some 8, some 9, none]⟩ : St Nat) ∧
      Ev.deallocEv 0 3 ∈ (shrinkToFitSt 1 (⟨5, Data.alloc 0 3 [some 8, some 9, none]⟩ : St Nat) 7).2.2 ∧
      allocdIds (shrinkToFitSt 1 (⟨5, Data.alloc 0 3 [some 8, some 9, none]⟩ : St Nat) 7).2.2 = []) ∧
    (getSize (⟨5, Data.alloc 0 3 [some 8, some 9, none]⟩ : St Nat) < 3 →
      1 < getSize (⟨5, Data.alloc 0 3 [some 8, some 9, none]⟩ : St Nat) →
      getIsAllocated (shrinkToFitSt 1 (⟨5, Data.alloc 0 3 [some 8, some 9, none]⟩ : St Nat) 7).1 = true ∧
      cap 1 (shrinkToFitSt 1 (⟨5, Data.alloc 0 3 [some 8, some 9, none]⟩ : St Nat) 7).1 =
        getSize (⟨5, Data.alloc 0 3 [some 8, some 9, none]⟩ : St Nat) ∧
      (∃ b, (shrinkToFitSt 1 (⟨5, Data.alloc 0 3 [some 8, some 9, none]⟩ : St Nat) 7).1.data =
        Data.alloc 7 (getSize (⟨5, Data.alloc 0 3 [some 8, some 9, none]⟩ : St Nat)) b) ∧
      liveList (shrinkToFitSt 1 (⟨5, Data.alloc 0 3 [some 8, some 9, none]⟩ : St Nat) 7).1 =
        liveList (⟨5, Data.alloc 0 3 [some 8, some 9, none]⟩ : St Nat) ∧
      Ev.allocEv 7 (getSize (⟨5, Data.alloc 0 3 [some 8, some 9, none]⟩ : St Nat)) ∈
        (shrinkToFitSt 1 (⟨5, Data.alloc 0 3 [some 8, some 9, none]⟩ : St Nat) 7).2.2 ∧
      Ev.deallocEv 0 3 ∈ (shrinkToFitSt 1 (⟨5, Data.alloc 0 3 [some 8, some 9, none]⟩ : St Nat) 7).2.2)) :=
  ⟨by decide, shrinkToFit_spec 1 (⟨5, Data.alloc 0 3 [some 8, some 9, none]⟩ : St Nat) 7 0 3
    [some 8, some 9, none] (by decide) rfl⟩

/-- C8: `Reserve(x)` with `x ≤ capacity` is a no-op — same state, no
allocation, no deallocation, no element touched (empty trace); with
`x > capacity` it reallocates to `ComputeCapacity(current, x)`, moves all
existing elements across (values preserved in order), destroys the old
elements and deallocates the old buffer when it was heap-allocated. -/
theorem reserve_spec {α : Type} (N : Nat) (st : St α) (fresh x : Nat)
    (hwf : WF N st) :
    (x ≤ cap N st → reserveSt N st fresh x = (st, fresh, [])) ∧
    (cap N st < x →
      cap N (reserveSt N st fresh x).1 = computeCapacity (cap N st) x ∧
      getIsAllocated (reserveSt N st fresh x).1 = true ∧
      getSize (reserveSt N st fresh x).1 = getSize st ∧
      liveList (reserveSt N st fresh x).1 = liveList st ∧
      Ev.allocEv fresh (computeCapacity (cap N st) x) ∈ (reserveSt N st fresh x).2.2 ∧
      (∀ j < getSize st, Ev.destroyEv j ∈ (reserveSt N st fresh x).2.2) ∧
      (∀ oid ocap oslots, st.data = Data.alloc oid ocap oslots →
        Ev.deallocEv oid ocap ∈ (reserveSt N st fresh x).2.2)) := by
  constructor
  · intro hle
    rw [reserveSt, if_pos hle]
  · intro hgt
    rw [reserveSt, if_neg (by omega)]
    have hsz : getSize st ≤ computeCapacity (cap N st) x := by
      have h1 := hwf.size_le
      have h2 := le_computeCapacity_right (cap N st) x
      omega
    refine ⟨rfl, getIsAllocated_setIsAllocated _, getSize_setIsAllocated _, ?_, ?_, ?_, ?_⟩
    · refine liveList_congr _ _ (getSize_setIsAllocated _) ?_
      intro j hj
      show readSlot (copyAcross (getBuf st) 0 (List.replicate _ none) 0 (getSize st)) j = _
      rw [readSlot_copyAcross (getBuf st) 0 _ 0 _ (by rw [List.length_replicate]; omega) j]
      rw [if_pos (by exact ⟨by omega, by omega⟩)]
      rw [show 0 + (j - 0) = j by omega]
    · exact List.mem_cons_self _ _
    · intro j hj
      refine List.mem_cons_of_mem _ (List.mem_append_left _ ?_)
      have hm := destroyEv_mem_trace 0 (getBuf st) (getSize st) j hj
      rw [Nat.zero_add] at hm
      exact hm
    · intro oid ocap oslots hd
      refine List.mem_cons_of_mem _ (List.mem_append_right _ ?_)
      rcases st with ⟨w, d⟩
      have hd2 : d = Data.alloc oid ocap oslots := hd
      subst hd2
      exact List.mem_cons_self _ _

/-- Witness for C8: an inline Storage of one element (`N = 1`), requested
capacity 3 (growth branch; the no-op branch's hypothesis is vacuous
here). -/
theorem reserve_spec_witness :
    WF 1 (⟨2, Data.inl [some 5]⟩ : St Nat) ∧
    ((3 ≤ cap 1 (⟨2, Data.inl [some 5]⟩ : St Nat) →
      reserveSt 1 (⟨2, Data.inl [some 5]⟩ : St Nat) 0 3 = (⟨2, Data.inl [some 5]⟩, 0, [])) ∧
    (cap 1 (⟨2, Data.inl [some 5]⟩ : St Nat) < 3 →
      cap 1 (reserveSt 1 (⟨2, Data.inl [some 5]⟩ : St Nat) 0 3).1 =
        computeCapacity (cap 1 (⟨2, Data.inl [some 5]⟩ : St Nat)) 3 ∧
      getIsAllocated (reserveSt 1 (⟨2, Data.inl [some 5]⟩ : St Nat) 0 3).1 = true ∧
      getSize (reserveSt 1 (⟨2, Data.inl [some 5]⟩ : St Nat) 0 3).1 =
        getSize (⟨2, Data.inl [some 5]⟩ : St Nat) ∧
      liveList (reserveSt 1 (⟨2, Data.inl [some 5]⟩ : St Nat) 0 3).1 =
        liveList (⟨2, Data.inl [some 5]⟩ : St Nat) ∧
      Ev.allocEv 0 (computeCapacity (cap 1 (⟨2, Data.inl [some 5]⟩ : St Nat)) 3) ∈
        (reserveSt 1 (⟨2, Data.inl [some 5]⟩ : St Nat) 0 3).2.2 ∧
      (∀ j < getSize (⟨2, Data.inl [some 5]⟩ : St Nat),
        Ev.destroyEv j ∈ (reserveSt 1 (⟨2, Data.inl [some 5]⟩ : St Nat) 0 3).2.2) ∧
      (∀ oid ocap oslots, (⟨2, Data.inl [some 5]⟩ : St Nat).data = Data.alloc oid ocap oslots →
        Ev.deallocEv oid ocap ∈ (reserveSt 1 (⟨2, Data.inl [some 5]⟩ : St Nat) 0 3).2.2))) :=
  ⟨by decide, reserve_spec 1 (⟨2, Data.inl [some 5]⟩ : St Nat) 0 3 (by decide)⟩

theorem liveList_length {α : Type} (st : St α) : (liveList st).length = getSize st := by
  simp [liveList]

theorem readSlot_liveList {α : Type} (st : St α) (q : Nat) :
    readSlot (liveList st) q =
      if q < getSize st then readSlot (getBuf st) q else none :=
  readSlot_range_map _ _ _

theorem readSlot_map_some {α : Type} (ws : List α) (k : Nat) (hk : k < ws.length) :
    readSlot (ws.map Option.some) k = some ws[k] := by
  rw [readSlot_getElem _ _ (by simpa using hk)]
  simp

theorem readSlot_splice {α : Type} (L M : Buf α) (idx : Nat) (hidx : idx ≤ L.length)
    (p : Nat) :
    readSlot (L.take idx ++ M ++ L.drop idx) p =
      if p < idx then readSlot L p
      else if p < idx + M.length then readSlot M (p - idx)
      else readSlot L (p - M.length) := by
  rw [List.append_assoc, readSlot_append, List.length_take]
  have hmin : min idx L.length = idx := by omega
  rw [hmin]
  by_cases h1 : p < idx
  · rw [if_pos h1, if_pos h1, readSlot_take, if_pos h1]
  · rw [if_neg h1, if_neg h1, readSlot_append]
    by_cases h2 : p - idx < M.length
    · rw [if_pos h2, if_pos (by omega)]
    · rw [if_neg h2, if_neg (by omega), readSlot_drop]
      congr 1
      omega

theorem getIsAllocated_setBuf {α : Type} (st : St α) (b : Buf α) :
    getIsAllocated (setBuf st b) = getIsAllocated st := by
  show ((setBuf st b).word % 2 == 1) = (st.word % 2 == 1)
  rw [word_setBuf]

theorem getSize_setBuf {α : Type} (st : St α) (b : Buf α) :
    getSize (setBuf st b) = getSize st := by
  show (setBuf st b).word / 2 = st.word / 2
  rw [word_setBuf]

theorem data_addSize {α : Type} (st : St α) (k : Nat) :
    (addSize st k).data = st.data := rfl

theorem cap_addSize {α : Type} (N : Nat) (st : St α) (k : Nat) :
    cap N (addSize st k) = cap N st := by
  rcases st with ⟨w, d⟩
  cases d <;> rfl

/-- Well-formedness of a freshly built allocated state
`⟨(ns << 1) | 1, alloc id nc B⟩`. -/
theorem mkAlloc_WF {α : Type} (N id nc ns : Nat) (B : Buf α)
    (hlen : B.length = nc) (hns : ns ≤ nc)
    (hlive : ∀ q < ns, (readSlot B q).isSome = true)
    (hdead : ∀ q, ns ≤ q → readSlot B q = none) :
    WF N (⟨2 * ns + 1, Data.alloc id nc B⟩ : St α) := by
  have hsz : getSize (⟨2 * ns + 1, Data.alloc id nc B⟩ : St α) = ns := by
    show (2 * ns + 1) / 2 = ns
    omega
  refine ⟨hlen, ?_, ?_, ?_⟩
  · show ((2 * ns + 1) % 2 == 1) = true
    rw [show (2 * ns + 1) % 2 = 1 by omega]
    rfl
  · rw [hsz]; exact hns
  · intro q hq
    rw [hsz]
    show (readSlot B q).isSome = decide (q < ns)
    by_cases h : q < ns
    · rw [hlive q h, decide_eq_true h]
    · rw [hdead q (by omega), decide_eq_false h]
      rfl

theorem liveList_mk_alloc {α : Type} (id nc ns : Nat) (B : Buf α) :
    liveList (⟨2 * ns + 1, Data.alloc id nc B⟩ : St α) =
      (List.range ns).map (readSlot B) := by
  unfold liveList
  have hsz : getSize (⟨2 * ns + 1, Data.alloc id nc B⟩ : St α) = ns := by
    show (2 * ns + 1) / 2 = ns
    omega
  rw [hsz]
  rfl

/-- Well-formedness after an in-place growth: same layout, `AddSize k`,
new slot contents `B`. -/
theorem setBuf_addSize_WF {α : Type} (N : Nat) (st : St α) (k : Nat) (B : Buf α)
    (hwf : WF N st) (hlen : B.length = cap N st)
    (hcap : getSize st + k ≤ cap N st)
    (hlive : ∀ q < getSize st + k, (readSlot B q).isSome = true)
    (hdead : ∀ q, getSize st + k ≤ q → readSlot B q = none) :
    WF N (setBuf (addSize st k) B) := by
  have hsz : getSize (setBuf (addSize st k) B) = getSize st + k := by
    rw [getSize_setBuf, getSize_addSize]
  refine ⟨?_, ?_, ?_, ?_⟩
  · rw [getBuf_setBuf, cap_setBuf, cap_addSize, hlen]
  · rw [getIsAllocated_setBuf, getIsAllocated_addSize, dataIsAlloc_setBuf, data_addSize]
    exact hwf.bit
  · rw [hsz, cap_setBuf, cap_addSize]
    exact hcap
  · intro q hq
    rw [getBuf_setBuf, hsz]
    by_cases h : q < getSize st + k
    · rw [hlive q h, decide_eq_true h]
    · rw [hdead q (by omega), decide_eq_false h]
      rfl

theorem liveList_setBuf_addSize {α : Type} (st : St α) (k : Nat) (B : Buf α) :
    liveList (setBuf (addSize st k) B) =
      (List.range (getSize st + k)).map (readSlot B) := by
  unfold liveList
  rw [getSize_setBuf, getSize_addSize, getBuf_setBuf]

/-- The logical contents after an operation whose final buffer holds, in
`[0, size + |ws|)`, the old prefix below `idx`, then `ws`, then the old
elements from `idx` shifted up. -/
theorem liveList_eq_splice {α : Type} (st' st : St α) (idx : Nat) (ws : List α)
    (hidx : idx ≤ getSize st)
    (hsz' : getSize st' = getSize st + ws.length)
    (hB : ∀ p, p < getSize st + ws.length → readSlot (getBuf st') p =
      (if p < idx then readSlot (getBuf st) p
       else if p < idx + ws.length then readSlot (ws.map Option.some) (p - idx)
       else readSlot (getBuf st) (p - ws.length))) :
    liveList st' = (liveList st).take idx ++ ws.map Option.some ++ (liveList st).drop idx := by
  refine buf_ext _ _ ?_ ?_
  · rw [liveList_length, hsz', List.length_append, List.length_append,
      List.length_take, liveList_length, List.length_map, List.length_drop, liveList_length]
    omega
  · intro p
    rw [readSlot_liveList, readSlot_splice _ _ idx (by rw [liveList_length]; omega) p,
      List.length_map, readSlot_liveList, readSlot_liveList, hsz']
    by_cases hp : p < getSize st + ws.length
    · rw [if_pos hp, hB p hp]
      by_cases h1 : p < idx
      · rw [if_pos h1, if_pos h1, if_pos (by omega)]
      · rw [if_neg h1, if_neg h1]
        by_cases h2 : p < idx + ws.length
        · rw [if_pos h2, if_pos h2]
        · rw [if_neg h2, if_neg h2, if_pos (by omega)]
    · rw [if_neg hp]
      rw [if_neg (by omega), if_neg (by omega), if_neg (by omega)]

/-- `Insert` at a valid index with an all-succeeding value source: it
succeeds, preserves well-formedness, grows the size by the insert count,
and splices the new values at the index. -/
theorem insertSt_ok {α : Type} (N : Nat) (st : St α) (fresh idx : Nat) (ws : List α)
    (hwf : WF N st) (hidx : idx ≤ getSize st) :
    ∃ st' f', insertSt N st fresh idx (ws.map Option.some) = .ok (st', f') ∧
      WF N st' ∧
      getSize st' = getSize st + ws.length ∧
      liveList st' = (liveList st).take idx ++ ws.map Option.some ++ (liveList st).drop idx := by
  have hszle := hwf.size_le
  have hsome : ∀ v ∈ ws.map Option.some, v.isSome = true := by
    intro v hv
    rcases List.mem_map.mp hv with ⟨w, _, rfl⟩
    rfl
  simp only [insertSt, List.length_map]
  by_cases hbig : getSize st + ws.length > cap N st
  · rw [if_pos hbig]
    have hnc := le_computeCapacity_right (cap N st) (getSize st + ws.length)
    obtain ⟨b1, es1, hcf, hb1len, hb1r, _⟩ := constructElements_ok false idx
      (List.replicate (computeCapacity (cap N st) (getSize st + ws.length)) (none : Option α))
      (ws.map Option.some) hsome
      (by rw [List.length_replicate, List.length_map]; omega)
    rw [hcf]
    have hb1len' : b1.length = computeCapacity (cap N st) (getSize st + ws.length) := by
      rw [hb1len, List.length_replicate]
    have hB : ∀ p, readSlot (copyAcross (getBuf st) idx
        (copyAcross (getBuf st) 0 b1 0 idx) (idx + ws.length) (getSize st - idx)) p =
        (if p < idx then readSlot (getBuf st) p
         else if p < idx + ws.length then readSlot (ws.map Option.some) (p - idx)
         else if p < getSize st + ws.length then readSlot (getBuf st) (p - ws.length)
         else none) := by
      intro p
      rw [readSlot_copyAcross (getBuf st) idx _ (idx + ws.length) (getSize st - idx)
        (by rw [copyAcross_length, hb1len']; omega) p]
      rw [readSlot_copyAcross (getBuf st) 0 b1 0 idx (by rw [hb1len']; omega) p]
      rw [hb1r p, List.length_map]
      by_cases h1 : p < idx
      · rw [if_neg (show ¬ (idx + ws.length ≤ p ∧
            p < idx + ws.length + (getSize st - idx)) by omega),
          if_pos (show 0 ≤ p ∧ p < 0 + idx by omega),
          if_pos h1]
        congr 1
        omega
      · by_cases h2 : p < idx + ws.length
        · rw [if_neg (show ¬ (idx + ws.length ≤ p ∧
              p < idx + ws.length + (getSize st - idx)) by omega),
            if_neg (show ¬ (0 ≤ p ∧ p < 0 + idx) by omega),
            if_pos (show idx ≤ p ∧ p < idx + ws.length by omega),
            if_neg h1, if_pos h2]
        · by_cases h3 : p < getSize st + ws.length
          · rw [if_pos (show idx + ws.length ≤ p ∧
                p < idx + ws.length + (getSize st - idx) by omega),
              if_neg h1, if_neg h2, if_pos h3]
            congr 1
            omega
          · rw [if_neg (show ¬ (idx + ws.length ≤ p ∧
                p < idx + ws.length + (getSize st - idx)) by omega),
              if_neg (show ¬ (0 ≤ p ∧ p < 0 + idx) by omega),
              if_neg (show ¬ (idx ≤ p ∧ p < idx + ws.length) by omega),
              if_neg h1, if_neg h2, if_neg h3]
            exact readSlot_replicate_none _ _
    have hwf' : WF N (⟨2 * (getSize st + ws.length) + 1,
        Data.alloc fresh (computeCapacity (cap N st) (getSize st + ws.length))
          (copyAcross (getBuf st) idx (copyAcross (getBuf st) 0 b1 0 idx)
            (idx + ws.length) (getSize st - idx))⟩ : St α) := by
      refine mkAlloc_WF N fresh _ _ _ ?_ (by omega) ?_ ?_
      · rw [copyAcross_length, copyAcross_length, hb1len']
      · intro q hq
        rw [hB q]
        by_cases h1 : q < idx
        · rw [if_pos h1]
          exact hwf.live_isSome q (by omega)
        · by_cases h2 : q < idx + ws.length
          · rw [if_neg h1, if_pos h2, readSlot_map_some ws (q - idx) (by omega)]
            rfl
          · rw [if_neg h1, if_neg h2, if_pos hq]
            exact hwf.live_isSome (q - ws.length) (by omega)
      · intro q hq
        rw [hB q, if_neg (by omega), if_neg (by omega), if_neg (by omega)]
    have hsz' : getSize (⟨2 * (getSize st + ws.length) + 1,
        Data.alloc fresh (computeCapacity (cap N st) (getSize st + ws.length))
          (copyAcross (getBuf st) idx (copyAcross (getBuf st) 0 b1 0 idx)
            (idx + ws.length) (getSize st - idx))⟩ : St α) =
        getSize st + ws.length := by
      show (2 * (getSize st + ws.length) + 1) / 2 = getSize st + ws.length
      omega
    have hll : liveList (⟨2 * (getSize st + ws.length) + 1,
        Data.alloc fresh (computeCapacity (cap N st) (getSize st + ws.length))
          (copyAcross (getBuf st) idx (copyAcross (getBuf st) 0 b1 0 idx)
            (idx + ws.length) (getSize st - idx))⟩ : St α) =
        (liveList st).take idx ++ ws.map Option.some ++ (liveList st).drop idx := by
      refine liveList_eq_splice _ st idx ws hidx hsz' ?_
      intro p hp
      show readSlot (copyAcross (getBuf st) idx (copyAcross (getBuf st) 0 b1 0 idx)
        (idx + ws.length) (getSize st - idx)) p = _
      rw [hB p]
      by_cases h1 : p < idx
      · rw [if_pos h1, if_pos h1]
      · by_cases h2 : p < idx + ws.length
        · rw [if_neg h1, if_pos h2, if_neg h1, if_pos h2]
        · rw [if_neg h1, if_neg h2, if_pos hp, if_neg h1, if_neg h2]
    exact ⟨_, _, rfl, hwf', hsz', hll⟩
  · rw [if_neg hbig]
    set D := max (idx + ws.length) (getSize st) with hD
    have h1 : idx + ws.length ≤ D := le_max_left _ _
    have h2 : getSize st ≤ D := le_max_right _ _
    have h3 : D ≤ getSize st + ws.length := max_le (by omega) (by omega)
    have hb2r : ∀ p, readSlot (backMove
        (copyWithin (getBuf st) D (D - ws.length) (getSize st + ws.length - D))
        D (D - ws.length) (D - (idx + ws.length))) p =
        (if idx + ws.length ≤ p ∧ p < getSize st + ws.length
         then readSlot (getBuf st) (p - ws.length)
         else readSlot (getBuf st) p) := by
      intro p
      rw [readSlot_backMove _ D (D - ws.length) (D - (idx + ws.length))
        (by omega) (by omega)
        (by rw [copyWithin_length, hwf.buflen]; omega) p]
      simp only [readSlot_copyWithin (getBuf st) D (D - ws.length)
        (getSize st + ws.length - D) (Or.inr (by omega)) (by rw [hwf.buflen]; omega)]
      by_cases hA : p < idx + ws.length
      · rw [if_neg (show ¬ (D - (D - (idx + ws.length)) ≤ p ∧ p < D) by omega),
          if_neg (show ¬ (D ≤ p ∧ p < D + (getSize st + ws.length - D)) by omega),
          if_neg (show ¬ (idx + ws.length ≤ p ∧ p < getSize st + ws.length) by omega)]
      · by_cases hBc : p < D
        · rw [if_pos (show D - (D - (idx + ws.length)) ≤ p ∧ p < D by omega),
            if_neg (show ¬ (D ≤ D - ws.length - (D - p) ∧
              D - ws.length - (D - p) < D + (getSize st + ws.length - D)) by omega),
            if_pos (show idx + ws.length ≤ p ∧ p < getSize st + ws.length by omega)]
          congr 1
          omega
        · by_cases hCc : p < getSize st + ws.length
          · rw [if_neg (show ¬ (D - (D - (idx + ws.length)) ≤ p ∧ p < D) by omega),
              if_pos (show D ≤ p ∧ p < D + (getSize st + ws.length - D) by omega),
              if_pos (show idx + ws.length ≤ p ∧ p < getSize st + ws.length by omega)]
            congr 1
            omega
          · rw [if_neg (show ¬ (D - (D - (idx + ws.length)) ≤ p ∧ p < D) by omega),
              if_neg (show ¬ (D ≤ p ∧ p < D + (getSize st + ws.length - D)) by omega),
              if_neg (show ¬ (idx + ws.length ≤ p ∧ p < getSize st + ws.length) by omega)]
    obtain ⟨b3, hasg, hb3len, hb3r⟩ := assignElements_ok idx
      (backMove (copyWithin (getBuf st) D (D - ws.length) (getSize st + ws.length - D))
        D (D - ws.length) (D - (idx + ws.length)))
      ((ws.map Option.some).take (getSize st + ws.length - D))
      (fun v hv => hsome v (List.mem_of_mem_take hv))
      (by
        rw [backMove_length, copyWithin_length, hwf.buflen, List.length_take, List.length_map]
        omega)
    obtain ⟨b4, es4, hcst, hb4len, hb4r, _⟩ := constructElements_ok false
      (idx + (getSize st + ws.length - D)) b3
      ((ws.map Option.some).drop (getSize st + ws.length - D))
      (fun v hv => hsome v (List.mem_of_mem_drop hv))
      (by
        rw [hb3len, backMove_length, copyWithin_length, hwf.buflen,
          List.length_drop, List.length_map]
        omega)
    have hlentake : ((ws.map Option.some).take (getSize st + ws.length - D)).length =
        getSize st + ws.length - D := by
      rw [List.length_take, List.length_map]
      omega
    have hB : ∀ p, readSlot b4 p =
        (if p < idx then readSlot (getBuf st) p
         else if p < idx + ws.length then readSlot (ws.map Option.some) (p - idx)
         else if p < getSize st + ws.length then readSlot (getBuf st) (p - ws.length)
         else readSlot (getBuf st) p) := by
      intro p
      rw [hb4r p, hb3r p, hb2r p, hlentake, List.length_drop, List.length_map]
      by_cases hA : p < idx
      · rw [if_neg (show ¬ (idx + (getSize st + ws.length - D) ≤ p ∧
            p < idx + (getSize st + ws.length - D) +
              (ws.length - (getSize st + ws.length - D))) by omega),
          if_neg (show ¬ (idx ≤ p ∧ p < idx + (getSize st + ws.length - D)) by omega),
          if_neg (show ¬ (idx + ws.length ≤ p ∧ p < getSize st + ws.length) by omega),
          if_pos hA]
      · by_cases hBc : p < idx + (getSize st + ws.length - D)
        · rw [if_neg (show ¬ (idx + (getSize st + ws.length - D) ≤ p ∧
              p < idx + (getSize st + ws.length - D) +
                (ws.length - (getSize st + ws.length - D))) by omega),
            if_pos (show idx ≤ p ∧ p < idx + (getSize st + ws.length - D) by omega),
            readSlot_take, if_pos (by omega), if_neg hA,
            if_pos (show p < idx + ws.length by omega)]
        · by_cases hCc : p < idx + ws.length
          · rw [if_pos (show idx + (getSize st + ws.length - D) ≤ p ∧
                p < idx + (getSize st + ws.length - D) +
                  (ws.length - (getSize st + ws.length - D)) by omega),
              readSlot_drop, if_neg hA, if_pos hCc]
            congr 1
            omega
          · by_cases hDc : p < getSize st + ws.length
            · rw [if_neg (show ¬ (idx + (getSize st + ws.length - D) ≤ p ∧
                  p < idx + (getSize st + ws.length - D) +
                    (ws.length - (getSize st + ws.length - D))) by omega),
                if_neg (show ¬ (idx ≤ p ∧ p < idx + (getSize st + ws.length - D)) by omega),
                if_pos (show idx + ws.length ≤ p ∧ p < getSize st + ws.length by omega),
                if_neg hA, if_neg hCc, if_pos hDc]
            · rw [if_neg (show ¬ (idx + (getSize st + ws.length - D) ≤ p ∧
                  p < idx + (getSize st + ws.length - D) +
                    (ws.length - (getSize st + ws.length - D))) by omega),
                if_neg (show ¬ (idx ≤ p ∧ p < idx + (getSize st + ws.length - D)) by omega),
                if_neg (show ¬ (idx + ws.length ≤ p ∧ p < getSize st + ws.length) by omega),
                if_neg hA, if_neg hCc, if_neg hDc]
    have hb4len' : b4.length = cap N st := by
      rw [hb4len, hb3len, backMove_length, copyWithin_length, hwf.buflen]
    have hwf' : WF N (setBuf (addSize st ws.length) b4) := by
      refine setBuf_addSize_WF N st ws.length b4 hwf hb4len' (by omega) ?_ ?_
      · intro q hq
        rw [hB q]
        by_cases hA : q < idx
        · rw [if_pos hA]
          exact hwf.live_isSome q (by omega)
        · by_cases hBc : q < idx + ws.length
          · rw [if_neg hA, if_pos hBc, readSlot_map_some ws (q - idx) (by omega)]
            rfl
          · rw [if_neg hA, if_neg hBc, if_pos (by omega)]
            exact hwf.live_isSome (q - ws.length) (by omega)
      · intro q hq
        rw [hB q, if_neg (by omega), if_neg (by omega), if_neg (by omega)]
        exact hwf.dead_none q (by omega)
    have hsz' : getSize (setBuf (addSize st ws.length) b4) = getSize st + ws.length := by
      rw [getSize_setBuf, getSize_addSize]
    have hll : liveList (setBuf (addSize st ws.length) b4) =
        (liveList st).take idx ++ ws.map Option.some ++ (liveList st).drop idx := by
      refine liveList_eq_splice _ st idx ws hidx hsz' ?_
      intro p hp
      rw [getBuf_setBuf, hB p]
      by_cases hA : p < idx
      · rw [if_pos hA, if_pos hA]
      · by_cases hBc : p < idx + ws.length
        · rw [if_neg hA, if_pos hBc, if_neg hA, if_pos hBc]
        · rw [if_neg hA, if_neg hBc, if_pos hp, if_neg hA, if_neg hBc]
    simp only [hasg, hcst]
    exact ⟨_, _, rfl, hwf', hsz', hll⟩

theorem data_subtractSize {α : Type} (st : St α) (k : Nat) :
    (subtractSize st k).data = st.data := rfl

theorem cap_subtractSize {α : Type} (N : Nat) (st : St α) (k : Nat) :
    cap N (subtractSize st k) = cap N st := by
  rcases st with ⟨w, d⟩
  cases d <;> rfl

theorem readSlot_take_drop {α : Type} (L : Buf α) (i j p : Nat) (hi : i ≤ L.length) :
    readSlot (L.take i ++ L.drop j) p =
      if p < i then readSlot L p else readSlot L (j + (p - i)) := by
  rw [readSlot_append, List.length_take]
  have hmin : min i L.length = i := by omega
  rw [hmin]
  by_cases h1 : p < i
  · rw [if_pos h1, if_pos h1, readSlot_take, if_pos h1]
  · rw [if_neg h1, if_neg h1, readSlot_drop]

/-- `Erase` of a valid range: preserves well-formedness, shrinks the size
by the range length, and removes exactly the elements `[i, j)`. -/
theorem eraseSt_spec {α : Type} (N : Nat) (st : St α) (i j : Nat)
    (hwf : WF N st) (hij : i ≤ j) (hj : j ≤ getSize st) :
    WF N (eraseSt st i j) ∧
    getSize (eraseSt st i j) = getSize st - (j - i) ∧
    liveList (eraseSt st i j) = (liveList st).take i ++ (liveList st).drop j := by
  have hszle := hwf.size_le
  have hb1r : ∀ p, readSlot (copyWithin (getBuf st) i j (getSize st - j)) p =
      (if i ≤ p ∧ p < i + (getSize st - j) then readSlot (getBuf st) (j + (p - i))
       else readSlot (getBuf st) p) := by
    intro p
    rw [readSlot_copyWithin (getBuf st) i j (getSize st - j) (Or.inl hij)
      (by rw [hwf.buflen]; omega) p]
  rw [show eraseSt st i j = setBuf (subtractSize st (j - i))
    (destroyElements (getSize st - (j - i))
      (copyWithin (getBuf st) i j (getSize st - j)) (j - i)).1 from rfl]
  set B2 := (destroyElements (getSize st - (j - i))
    (copyWithin (getBuf st) i j (getSize st - j)) (j - i)).1 with hB2def
  have hB2len : B2.length = cap N st := by
    rw [hB2def, destroyElements_length, copyWithin_length, hwf.buflen]
  have hB : ∀ p, readSlot B2 p =
      (if p < getSize st - (j - i)
       then (if p < i then readSlot (getBuf st) p else readSlot (getBuf st) (p + (j - i)))
       else (if p < getSize st then none else readSlot (getBuf st) p)) := by
    intro p
    rw [hB2def, readSlot_destroyElements (getSize st - (j - i))
      (copyWithin (getBuf st) i j (getSize st - j)) (j - i) p
      (by rw [copyWithin_length, hwf.buflen]; omega)]
    rw [hb1r p]
    by_cases h1 : p < i
    · rw [if_neg (show ¬ (getSize st - (j - i) ≤ p ∧
          p < getSize st - (j - i) + (j - i)) by omega),
        if_neg (show ¬ (i ≤ p ∧ p < i + (getSize st - j)) by omega),
        if_pos (show p < getSize st - (j - i) by omega), if_pos h1]
    · by_cases h2 : p < getSize st - (j - i)
      · rw [if_neg (show ¬ (getSize st - (j - i) ≤ p ∧
            p < getSize st - (j - i) + (j - i)) by omega),
          if_pos (show i ≤ p ∧ p < i + (getSize st - j) by omega),
          if_pos h2, if_neg h1]
        congr 1
        omega
      · by_cases h3 : p < getSize st
        · rw [if_pos (show getSize st - (j - i) ≤ p ∧
              p < getSize st - (j - i) + (j - i) by omega),
            if_neg h2, if_pos h3]
        · rw [if_neg (show ¬ (getSize st - (j - i) ≤ p ∧
              p < getSize st - (j - i) + (j - i)) by omega),
            if_neg (show ¬ (i ≤ p ∧ p < i + (getSize st - j)) by omega),
            if_neg h2, if_neg h3]
  have hszE : getSize (setBuf (subtractSize st (j - i)) B2) = getSize st - (j - i) := by
    rw [getSize_setBuf, getSize_subtractSize st (j - i) (by omega)]
  refine ⟨?_, hszE, ?_⟩
  · refine ⟨?_, ?_, ?_, ?_⟩
    · rw [getBuf_setBuf, cap_setBuf, cap_subtractSize, hB2len]
    · rw [getIsAllocated_setBuf, getIsAllocated_subtractSize st (j - i) (by omega),
        dataIsAlloc_setBuf, data_subtractSize]
      exact hwf.bit
    · rw [hszE, cap_setBuf, cap_subtractSize]
      omega
    · intro q hq
      rw [hszE, getBuf_setBuf, hB q]
      by_cases h2 : q < getSize st - (j - i)
      · rw [if_pos h2, decide_eq_true h2]
        by_cases h1 : q < i
        · rw [if_pos h1]
          exact hwf.live_isSome q (by omega)
        · rw [if_neg h1]
          exact hwf.live_isSome (q + (j - i)) (by omega)
      · rw [if_neg h2, decide_eq_false h2]
        by_cases h3 : q < getSize st
        · rw [if_pos h3]
          rfl
        · rw [if_neg h3, hwf.dead_none q (by omega)]
          rfl
  · refine buf_ext _ _ ?_ ?_
    · rw [liveList_length, hszE, List.length_append, List.length_take,
        List.length_drop, liveList_length]
      omega
    · intro p
      rw [readSlot_liveList, hszE, getBuf_setBuf,
        readSlot_take_drop (liveList st) i j p (by rw [liveList_length]; omega),
        readSlot_liveList, readSlot_liveList]
      by_cases h2 : p < getSize st - (j - i)
      · rw [if_pos h2, hB p, if_pos h2]
        by_cases h1 : p < i
        · rw [if_pos h1, if_pos h1, if_pos (by omega)]
        · rw [if_neg h1, if_neg h1, if_pos (by omega)]
          congr 1
          omega
      · rw [if_neg h2,
          if_neg (show ¬ p < i by omega),
          if_neg (show ¬ j + (p - i) < getSize st by omega)]

/-- C6: inserting `count` new values at a valid index `i` and then
erasing `[i, i + count)` restores the original element sequence — same
size, same values in the same order — on both the in-place and the
reallocating insert path. -/
theorem insert_erase_roundtrip {α : Type} (N : Nat) (st : St α) (fresh idx : Nat)
    (ws : List α) (hwf : WF N st) (hidx : idx ≤ getSize st) :
    ∃ st' f', insertSt N st fresh idx (ws.map Option.some) = .ok (st', f') ∧
      liveList (eraseSt st' idx (idx + ws.length)) = liveList st ∧
      getSize (eraseSt st' idx (idx + ws.length)) = getSize st := by
  obtain ⟨st', f', hres, hwf', hsz', hll⟩ := insertSt_ok N st fresh idx ws hwf hidx
  obtain ⟨hwfE, hszE, hllE⟩ := eraseSt_spec N st' idx (idx + ws.length) hwf'
    (by omega) (by omega)
  refine ⟨st', f', hres, ?_, by rw [hszE, hsz']; omega⟩
  rw [hllE, hll]
  have hA : ((liveList st).take idx).length = idx := by
    rw [List.length_take, liveList_length]
    omega
  have htake : (((liveList st).take idx ++ ws.map Option.some) ++
      (liveList st).drop idx).take idx = (liveList st).take idx := by
    rw [List.append_assoc]
    exact List.take_left' hA
  have hdrop : (((liveList st).take idx ++ ws.map Option.some) ++
      (liveList st).drop idx).drop (idx + ws.length) = (liveList st).drop idx :=
    List.drop_left' (by rw [List.length_append, hA, List.length_map])
  rw [htake, hdrop, List.take_append_drop]

/-- Witness for C6: insert `[7, 8]` at index 0 of a one-element inline
Storage (`N = 1`; the insert reallocates), then erase `[0, 2)`. -/
theorem insert_erase_roundtrip_witness :
    WF 1 (⟨2, Data.inl [some 5]⟩ : St Nat) ∧
    (∃ st' f', insertSt 1 (⟨2, Data.inl [some 5]⟩ : St Nat) 0 0
        ([7, 8].map Option.some) = .ok (st', f') ∧
      liveList (eraseSt st' 0 (0 + [7, 8].length)) =
        liveList (⟨2, Data.inl [some 5]⟩ : St Nat) ∧
      getSize (eraseSt st' 0 (0 + [7, 8].length)) =
        getSize (⟨2, Data.inl [some 5]⟩ : St Nat)) :=
  ⟨by decide, insert_erase_roundtrip 1 (⟨2, Data.inl [some 5]⟩ : St Nat) 0 0 [7, 8]
    (by decide) (by decide)⟩

theorem st_ext {α : Type} (x y : St α) (hw : x.word = y.word)
    (hd : x.data = y.data) : x = y := by
  rcases x with ⟨wx, dx⟩
  rcases y with ⟨wy, dy⟩
  simp only at hw hd
  rw [hw, hd]

/-- The both-inline case of `Swap` exactly exchanges the two storages
(the smaller side `sm` first). -/
theorem swapBothInl_eq {α : Type} (N : Nat) (sm lg : St α)
    (hsm : WF N sm) (hlg : WF N lg)
    (hsmA : getIsAllocated sm = false) (hlgA : getIsAllocated lg = false)
    (hsz : getSize sm ≤ getSize lg) :
    swapBothInl sm lg = (lg, sm) := by
  obtain ⟨smS, hdsm⟩ := data_inl_of_not_alloc hsm hsmA
  obtain ⟨lgS, hdlg⟩ := data_inl_of_not_alloc hlg hlgA
  have hsmBuf : getBuf sm = smS := getBuf_of_inl _ _ hdsm
  have hlgBuf : getBuf lg = lgS := getBuf_of_inl _ _ hdlg
  have hsmLen : smS.length = N := by
    rw [← hsmBuf, hsm.buflen, cap_of_inl N sm smS hdsm]
  have hlgLen : lgS.length = N := by
    rw [← hlgBuf, hlg.buflen, cap_of_inl N lg lgS hdlg]
  have hsl : getSize sm ≤ N := by
    have h := hsm.size_le
    rw [cap_of_inl N sm smS hdsm] at h
    exact h
  have hllle : getSize lg ≤ N := by
    have h := hlg.size_le
    rw [cap_of_inl N lg lgS hdlg] at h
    exact h
  refine congrArg₂ Prod.mk ?_ ?_
  · refine st_ext _ _ rfl ?_
    show Data.inl (copyAcross (getBuf lg) (getSize sm)
      (copyAcross (getBuf lg) 0 (getBuf sm) 0 (getSize sm)) (getSize sm)
      (getSize lg - getSize sm)) = lg.data
    rw [hdlg]
    refine congrArg Data.inl ?_
    refine buf_ext _ _ ?_ ?_
    · rw [copyAcross_length, copyAcross_length, hsmBuf, hsmLen, hlgLen]
    · intro p
      rw [readSlot_copyAcross (getBuf lg) (getSize sm) _ (getSize sm)
        (getSize lg - getSize sm)
        (by rw [copyAcross_length, hsmBuf, hsmLen]; omega) p]
      rw [readSlot_copyAcross (getBuf lg) 0 (getBuf sm) 0 (getSize sm)
        (by rw [hsmBuf, hsmLen]; omega) p]
      by_cases h1 : p < getSize sm
      · rw [if_neg (by omega), if_pos (show 0 ≤ p ∧ p < 0 + getSize sm by omega), hlgBuf]
        congr 1
        omega
      · by_cases h2 : p < getSize lg
        · rw [if_pos (show getSize sm ≤ p ∧
            p < getSize sm + (getSize lg - getSize sm) by omega), hlgBuf]
          congr 1
          omega
        · rw [if_neg (by omega), if_neg (by omega)]
          rw [hsm.dead_none p (by omega), ← hlgBuf, hlg.dead_none p (by omega)]
  · refine st_ext _ _ rfl ?_
    show Data.inl (destroyElements (getSize sm)
      (copyAcross (getBuf sm) 0 (getBuf lg) 0 (getSize sm))
      (getSize lg - getSize sm)).1 = sm.data
    rw [hdsm]
    refine congrArg Data.inl ?_
    refine buf_ext _ _ ?_ ?_
    · rw [destroyElements_length, copyAcross_length, hlgBuf, hlgLen, hsmLen]
    · intro p
      rw [readSlot_destroyElements (getSize sm) _ (getSize lg - getSize sm) p
        (by rw [copyAcross_length, hlgBuf, hlgLen]; omega)]
      rw [readSlot_copyAcross (getBuf sm) 0 (getBuf lg) 0 (getSize sm)
        (by rw [hlgBuf, hlgLen]; omega) p]
      by_cases h1 : p < getSize sm
      · rw [if_neg (by omega), if_pos (show 0 ≤ p ∧ p < 0 + getSize sm by omega), hsmBuf]
        congr 1
        omega
      · by_cases h2 : p < getSize lg
        · rw [if_pos (show getSize sm ≤ p ∧
            p < getSize sm + (getSize lg - getSize sm) by omega)]
          rw [← hsmBuf, hsm.dead_none p (by omega)]
        · rw [if_neg (by omega), if_neg (by omega)]
          rw [hlg.dead_none p (by omega), ← hsmBuf, hsm.dead_none p (by omega)]

/-- The mixed case of `Swap` exactly exchanges the two storages. -/
theorem swapMixed_eq {α : Type} (N : Nat) (alS il : St α)
    (hal : WF N alS) (hil : WF N il)
    (halA : getIsAllocated alS = true) (hilA : getIsAllocated il = false) :
    swapMixed N alS il = (il, alS) := by
  obtain ⟨oid, ocap, oslots, hda⟩ := data_alloc_of_alloc hal halA
  obtain ⟨ils, hdi⟩ := data_inl_of_not_alloc hil hilA
  have hiBuf : getBuf il = ils := getBuf_of_inl _ _ hdi
  have hiLen : ils.length = N := by
    rw [← hiBuf, hil.buflen, cap_of_inl N il ils hdi]
  have hisz : getSize il ≤ N := by
    have h := hil.size_le
    rw [cap_of_inl N il ils hdi] at h
    exact h
  rcases alS with ⟨wa, da⟩
  have hda2 : da = Data.alloc oid ocap oslots := hda
  subst hda2
  simp only [swapMixed]
  refine congrArg₂ Prod.mk ?_ ?_
  · refine st_ext _ _ rfl ?_
    show Data.inl (copyAcross (getBuf il) 0 (List.replicate N none) 0 (getSize il)) = il.data
    rw [hdi]
    refine congrArg Data.inl ?_
    refine buf_ext _ _ ?_ ?_
    · rw [copyAcross_length, List.length_replicate, hiLen]
    · intro p
      rw [readSlot_copyAcross (getBuf il) 0 _ 0 (getSize il)
        (by rw [List.length_replicate]; omega) p]
      by_cases h1 : p < getSize il
      · rw [if_pos (show 0 ≤ p ∧ p < 0 + getSize il by omega), hiBuf]
        congr 1
        omega
      · rw [if_neg (by omega), readSlot_replicate_none, ← hiBuf,
          hil.dead_none p (by omega)]
  · exact st_ext _ _ rfl rfl

/-- `Swap` exactly exchanges the logical states of two well-formed
storages, in all three layout combinations. -/
theorem swapSt_eq {α : Type} (N : Nat) (a b : St α) (ha : WF N a) (hb : WF N b) :
    swapSt N a b = (b, a) := by
  by_cases hA : getIsAllocated a = true
  · by_cases hB : getIsAllocated b = true
    · rw [swapSt, if_pos (by rw [hA, hB]; rfl)]
    · have hB' : getIsAllocated b = false := by
        cases h : getIsAllocated b
        · rfl
        · exact absurd h hB
      rw [swapSt, if_neg (by rw [hA, hB']; simp), if_neg (by rw [hA]; simp),
        if_pos hA]
      exact swapMixed_eq N a b ha hb hA hB'
  · have hA' : getIsAllocated a = false := by
      cases h : getIsAllocated a
      · rfl
      · exact absurd h hA
    by_cases hB : getIsAllocated b = true
    · rw [swapSt, if_neg (by rw [hA']; simp), if_neg (by rw [hB]; simp),
        if_neg (by rw [hA']; simp)]
      rw [swapMixed_eq N b a hb ha hB hA']
    · have hB' : getIsAllocated b = false := by
        cases h : getIsAllocated b
        · rfl
        · exact absurd h hB
      rw [swapSt, if_neg (by rw [hA']; simp), if_pos (by rw [hA', hB']; rfl)]
      by_cases hsz : getSize a > getSize b
      · rw [if_pos hsz, swapBothInl_eq N b a hb ha hB' hA' (by omega)]
      · rw [if_neg hsz, swapBothInl_eq N a b ha hb hA' hB' (by omega)]

/-- C7: for well-formed storages `a` and `b` in any of the three layout
combinations, `a.swap(b)` exactly exchanges the two logical states
(sizes, element values, allocated/inline layout and, for heap buffers,
buffer identity and capacity), and a following `b.swap(a)` restores both
to their original states.  `swapSt` returns `(this-after, other-after)`,
so after the second call the first component is `b`'s final state and the
second is `a`'s. -/
theorem swap_swap_restores {α : Type} (N : Nat) (a b : St α)
    (ha : WF N a) (hb : WF N b) :
    swapSt N a b = (b, a) ∧
    swapSt N (swapSt N a b).2 (swapSt N a b).1 = (b, a) := by
  have h1 := swapSt_eq N a b ha hb
  refine ⟨h1, ?_⟩
  rw [h1]
  exact swapSt_eq N a b ha hb

/-- Witness for C7: a mixed pair (`a` heap-allocated with one element,
`b` inline with one element, `N = 1`). -/
theorem swap_swap_restores_witness :
    (WF 1 (⟨3, Data.alloc 0 2 [some 1, none]⟩ : St Nat) ∧
      WF 1 (⟨2, Data.inl [some 9]⟩ : St Nat)) ∧
    (swapSt 1 (⟨3, Data.alloc 0 2 [some 1, none]⟩ : St Nat) (⟨2, Data.inl [some 9]⟩ : St Nat) =
      ((⟨2, Data.inl [some 9]⟩ : St Nat), (⟨3, Data.alloc 0 2 [some 1, none]⟩ : St Nat)) ∧
    swapSt 1
      (swapSt 1 (⟨3, Data.alloc 0 2 [some 1, none]⟩ : St Nat) (⟨2, Data.inl [some 9]⟩ : St Nat)).2
      (swapSt 1 (⟨3, Data.alloc 0 2 [some 1, none]⟩ : St Nat) (⟨2, Data.inl [some 9]⟩ : St Nat)).1 =
      ((⟨2, Data.inl [some 9]⟩ : St Nat), (⟨3, Data.alloc 0 2 [some 1, none]⟩ : St Nat))) :=
  ⟨⟨by decide, by decide⟩,
    swap_swap_restores 1 (⟨3, Data.alloc 0 2 [some 1, none]⟩ : St Nat)
      (⟨2, Data.inl [some 9]⟩ : St Nat) (by decide) (by decide)⟩

/-! ### The data-model invariant over operation sequences -/

theorem le_computeCapacity_left (c r : Nat) : c ≤ computeCapacity c r := by
  show c ≤ max (nextCapacity c) r
  exact le_trans (show c ≤ nextCapacity c by show c ≤ c * 2; omega) (le_max_left _ _)

theorem exists_map_some {α : Type} (vals : List (Option α))
    (h : ∀ v ∈ vals, v.isSome = true) : ∃ ws : List α, vals = ws.map Option.some := by
  induction vals with
  | nil => exact ⟨[], rfl⟩
  | cons v rest ih =>
    obtain ⟨ws, hws⟩ := ih (fun u hu => h u (List.mem_cons_of_mem _ hu))
    match v, h v (List.mem_cons_self v rest) with
    | some w, _ => exact ⟨w :: ws, by rw [List.map_cons, hws]⟩

theorem readSlot_isSome_of_all {α : Type} (vals : List (Option α))
    (h : ∀ v ∈ vals, v.isSome = true) (j : Nat) (hj : j < vals.length) :
    (readSlot vals j).isSome = true := by
  rw [readSlot_getElem vals j hj]
  exact h _ (List.getElem_mem hj)

theorem data_setSize {α : Type} (st : St α) (n : Nat) :
    (setSize st n).data = st.data := rfl

theorem cap_setSize {α : Type} (N : Nat) (st : St α) (n : Nat) :
    cap N (setSize st n) = cap N st := by
  rcases st with ⟨w, d⟩
  cases d <;> rfl

/-- Well-formedness after an in-place size change: same layout,
`SetSize n`, new slot contents `B`. -/
theorem setBuf_setSize_WF {α : Type} (N : Nat) (st : St α) (n : Nat) (B : Buf α)
    (hwf : WF N st) (hlen : B.length = cap N st)
    (hcap : n ≤ cap N st)
    (hlive : ∀ q < n, (readSlot B q).isSome = true)
    (hdead : ∀ q, n ≤ q → readSlot B q = none) :
    WF N (setBuf (setSize st n) B) := by
  have hsz : getSize (setBuf (setSize st n) B) = n := by
    rw [getSize_setBuf, getSize_setSize]
  refine ⟨?_, ?_, ?_, ?_⟩
  · rw [getBuf_setBuf, cap_setBuf, cap_setSize, hlen]
  · rw [getIsAllocated_setBuf, getIsAllocated_setSize, dataIsAlloc_setBuf, data_setSize]
    exact hwf.bit
  · rw [hsz, cap_setBuf, cap_setSize]
    exact hcap
  · intro q hq
    rw [getBuf_setBuf, hsz]
    by_cases h : q < n
    · rw [hlive q h, decide_eq_true h]
    · rw [hdead q (by omega), decide_eq_false h]
      rfl

/-- Well-formedness of a freshly built inline state `⟨ns << 1, inl B⟩`. -/
theorem mkInl_WF {α : Type} (N ns : Nat) (B : Buf α)
    (hlen : B.length = N) (hns : ns ≤ N)
    (hlive : ∀ q < ns, (readSlot B q).isSome = true)
    (hdead : ∀ q, ns ≤ q → readSlot B q = none) :
    WF N (⟨2 * ns, Data.inl B⟩ : St α) := by
  have hsz : getSize (⟨2 * ns, Data.inl B⟩ : St α) = ns := by
    show 2 * ns / 2 = ns
    omega
  refine ⟨hlen, ?_, ?_, ?_⟩
  · show ((2 * ns) % 2 == 1) = false
    rw [show (2 * ns) % 2 = 0 by omega]
    rfl
  · rw [hsz]; exact hns
  · intro q hq
    rw [hsz]
    show (readSlot B q).isSome = decide (q < ns)
    by_cases h : q < ns
    · rw [hlive q h, decide_eq_true h]
    · rw [hdead q (by omega), decide_eq_false h]
      rfl

theorem all_take_of_all_take {α : Type} (vals : List (Option α)) (m n : Nat)
    (hmn : m ≤ n) (h : ∀ v ∈ vals.take n, v.isSome = true) :
    ∀ v ∈ vals.take m, v.isSome = true := by
  intro v hv
  apply h
  have heq : (vals.take n).take m = vals.take m := by
    rw [List.take_take, Nat.min_eq_left hmn]
  rw [← heq] at hv
  exact List.take_subset _ _ hv

theorem all_drop_take_of_all_take {α : Type} (vals : List (Option α)) (m n : Nat)
    (h : ∀ v ∈ vals.take n, v.isSome = true) :
    ∀ v ∈ (vals.drop m).take (n - m), v.isSome = true := by
  intro v hv
  apply h
  rw [← List.drop_take] at hv
  exact List.drop_subset _ _ hv

theorem addSize_setBuf_comm {α : Type} (st : St α) (b : Buf α) (k : Nat) :
    addSize (setBuf st b) k = setBuf (addSize st k) b := by
  rcases st with ⟨w, d⟩
  cases d <;> rfl

theorem cap_eraseSt {α : Type} (N : Nat) (st : St α) (i j : Nat) :
    cap N (eraseSt st i j) = cap N st := by
  simp only [eraseSt]
  rw [cap_setBuf, cap_subtractSize]

/-- `Initialize` on a fresh empty Storage preserves the invariant when it
returns normally. -/
theorem initSt_wfc {α : Type} (N : Nat) (st : St α) (f n : Nat)
    (vals : List (Option α)) (st' : St α) (f' : Nat) (es : List Ev)
    (hwfc : WFC N st) (hsz : getSize st = 0) (hal : getIsAllocated st = false)
    (hn : n ≤ vals.length) (hvals : ∀ v ∈ vals.take n, v.isSome = true)
    (hres : initSt N st f vals n = .ok (st', f', es)) :
    WFC N st' := by
  obtain ⟨hwf, hNcap⟩ := hwfc
  have hw0 : st.word = 0 := word_eq_zero_of_empty st hsz hal
  have htlen : (vals.take n).length = n := by
    rw [List.length_take]; omega
  rw [initSt] at hres
  by_cases hbig : n > N
  · rw [if_pos hbig] at hres
    have hnle : n ≤ computeCapacity N n := le_computeCapacity_right N n
    have hNle : N ≤ computeCapacity N n := le_computeCapacity_left N n
    obtain ⟨b, es2, hok, hblen, hbr, _⟩ := constructElements_ok false 0
      (List.replicate (computeCapacity N n) (none : Option α)) (vals.take n) hvals
      (by rw [List.length_replicate, htlen]; omega)
    rw [htlen] at hbr
    simp only [hok, Except.ok.injEq, Prod.mk.injEq] at hres
    obtain ⟨h1, _, _⟩ := hres
    rw [← h1]
    have hshape : addSize (setBuf (setIsAllocated
          (⟨st.word, Data.alloc f (computeCapacity N n)
            (List.replicate (computeCapacity N n) none)⟩ : St α)) b) n =
        (⟨2 * n + 1, Data.alloc f (computeCapacity N n) b⟩ : St α) := by
      refine st_ext _ _ ?_ rfl
      show 2 * (st.word / 2) + 1 + 2 * n = 2 * n + 1
      omega
    rw [hshape]
    refine ⟨mkAlloc_WF N f (computeCapacity N n) n b ?_ hnle ?_ ?_, ?_⟩
    · rw [hblen, List.length_replicate]
    · intro q hq
      rw [hbr q, if_pos (show 0 ≤ q ∧ q < 0 + n by omega), Nat.sub_zero]
      exact readSlot_isSome_of_all _ hvals q (by rw [htlen]; exact hq)
    · intro q hq
      rw [hbr q, if_neg (show ¬ (0 ≤ q ∧ q < 0 + n) by omega)]
      exact readSlot_replicate_none _ q
    · exact hNle
  · rw [if_neg hbig] at hres
    obtain ⟨b, es2, hok, hblen, hbr, _⟩ := constructElements_ok false 0
      (getBuf st) (vals.take n) hvals
      (by rw [hwf.buflen, htlen]; omega)
    rw [htlen] at hbr
    simp only [hok, Except.ok.injEq, Prod.mk.injEq] at hres
    obtain ⟨h1, _, _⟩ := hres
    rw [← h1, addSize_setBuf_comm]
    refine ⟨setBuf_addSize_WF N st n b hwf ?_ (by omega) ?_ ?_, ?_⟩
    · rw [hblen, hwf.buflen]
    · intro q hq
      rw [hbr q, if_pos (show 0 ≤ q ∧ q < 0 + n by omega), Nat.sub_zero]
      exact readSlot_isSome_of_all _ hvals q (by rw [htlen]; omega)
    · intro q hq
      rw [hbr q, if_neg (show ¬ (0 ≤ q ∧ q < 0 + n) by omega)]
      exact hwf.dead_none q (by omega)
    · rw [cap_setBuf, cap_addSize]
      exact hNcap

/-- `Assign` preserves the invariant when it returns normally. -/
theorem assignSt_wfc {α : Type} (N : Nat) (st : St α) (f n : Nat)
    (vals : List (Option α)) (st' : St α) (f' : Nat)
    (hwfc : WFC N st)
    (hn : n ≤ vals.length) (hvals : ∀ v ∈ vals.take n, v.isSome = true)
    (hres : assignSt N st f vals n = .ok (st', f')) :
    WFC N st' := by
  obtain ⟨hwf, hNcap⟩ := hwfc
  have hszle := hwf.size_le
  have htlen : (vals.take n).length = n := by rw [List.length_take]; omega
  simp only [assignSt] at hres
  by_cases hbig : n > cap N st
  · rw [if_pos hbig] at hres
    have hnle : n ≤ computeCapacity (cap N st) n := le_computeCapacity_right _ _
    have hNle : N ≤ computeCapacity (cap N st) n :=
      le_trans hNcap (le_computeCapacity_left _ _)
    obtain ⟨b1, es1, hok, hblen, hbr, _⟩ := constructElements_ok false 0
      (List.replicate (computeCapacity (cap N st) n) (none : Option α)) (vals.take n) hvals
      (by rw [List.length_replicate, htlen]; omega)
    rw [htlen] at hbr
    simp only [hok, Except.ok.injEq, Prod.mk.injEq] at hres
    obtain ⟨h1, _⟩ := hres
    rw [← h1]
    refine ⟨mkAlloc_WF N f (computeCapacity (cap N st) n) n b1 ?_ hnle ?_ ?_, hNle⟩
    · rw [hblen, List.length_replicate]
    · intro q hq
      rw [hbr q, if_pos (show 0 ≤ q ∧ q < 0 + n by omega), Nat.sub_zero]
      exact readSlot_isSome_of_all _ hvals q (by rw [htlen]; omega)
    · intro q hq
      rw [hbr q, if_neg (show ¬ (0 ≤ q ∧ q < 0 + n) by omega)]
      exact readSlot_replicate_none _ q
  · rw [if_neg hbig] at hres
    by_cases hgrow : n > getSize st
    · rw [if_pos hgrow] at hres
      have hsome1 : ∀ v ∈ vals.take (getSize st), v.isSome = true :=
        all_take_of_all_take vals (getSize st) n (by omega) hvals
      have ht1len : (vals.take (getSize st)).length = getSize st := by
        rw [List.length_take]; omega
      obtain ⟨b1, hok1, hb1len, hb1r⟩ := assignElements_ok 0 (getBuf st)
        (vals.take (getSize st)) hsome1 (by rw [hwf.buflen, ht1len]; omega)
      rw [ht1len] at hb1r
      simp only [hok1] at hres
      have hsome2 : ∀ v ∈ (vals.drop (getSize st)).take (n - getSize st), v.isSome = true :=
        all_drop_take_of_all_take vals (getSize st) n hvals
      have ht2len : ((vals.drop (getSize st)).take (n - getSize st)).length =
          n - getSize st := by
        rw [List.length_take, List.length_drop]; omega
      obtain ⟨b2, es2, hok2, hb2len, hb2r, _⟩ := constructElements_ok false (getSize st) b1
        ((vals.drop (getSize st)).take (n - getSize st)) hsome2
        (by rw [hb1len, hwf.buflen, ht2len]; omega)
      rw [ht2len] at hb2r
      simp only [hok2, Except.ok.injEq, Prod.mk.injEq] at hres
      obtain ⟨h1, _⟩ := hres
      rw [← h1]
      refine ⟨setBuf_setSize_WF N st n b2 hwf ?_ (by omega) ?_ ?_, ?_⟩
      · rw [hb2len, hb1len, hwf.buflen]
      · intro q hq
        by_cases h2 : q < getSize st
        · rw [hb2r q,
            if_neg (show ¬ (getSize st ≤ q ∧ q < getSize st + (n - getSize st)) by omega),
            hb1r q, if_pos (show 0 ≤ q ∧ q < 0 + getSize st by omega), Nat.sub_zero]
          exact readSlot_isSome_of_all _ hsome1 q (by rw [ht1len]; omega)
        · rw [hb2r q,
            if_pos (show getSize st ≤ q ∧ q < getSize st + (n - getSize st) by omega)]
          exact readSlot_isSome_of_all _ hsome2 (q - getSize st) (by rw [ht2len]; omega)
      · intro q hq
        rw [hb2r q,
          if_neg (show ¬ (getSize st ≤ q ∧ q < getSize st + (n - getSize st)) by omega),
          hb1r q, if_neg (show ¬ (0 ≤ q ∧ q < 0 + getSize st) by omega)]
        exact hwf.dead_none q (by omega)
      · rw [cap_setBuf, cap_setSize]
        exact hNcap
    · rw [if_neg hgrow] at hres
      obtain ⟨b1, hok1, hb1len, hb1r⟩ := assignElements_ok 0 (getBuf st)
        (vals.take n) hvals (by rw [hwf.buflen, htlen]; omega)
      rw [htlen] at hb1r
      simp only [hok1, Except.ok.injEq, Prod.mk.injEq] at hres
      obtain ⟨h1, _⟩ := hres
      rw [← h1]
      have hdr : ∀ q, readSlot (destroyElements n b1 (getSize st - n)).1 q =
          if n ≤ q ∧ q < n + (getSize st - n) then none else readSlot b1 q :=
        fun q => readSlot_destroyElements n b1 (getSize st - n) q
          (by rw [hb1len, hwf.buflen]; omega)
      refine ⟨setBuf_setSize_WF N st n _ hwf ?_ (by omega) ?_ ?_, ?_⟩
      · rw [destroyElements_length, hb1len, hwf.buflen]
      · intro q hq
        rw [hdr q, if_neg (show ¬ (n ≤ q ∧ q < n + (getSize st - n)) by omega),
          hb1r q, if_pos (show 0 ≤ q ∧ q < 0 + n by omega), Nat.sub_zero]
        exact readSlot_isSome_of_all _ hvals q (by rw [htlen]; omega)
      · intro q hq
        by_cases h2 : q < getSize st
        · rw [hdr q, if_pos (show n ≤ q ∧ q < n + (getSize st - n) by omega)]
        · rw [hdr q, if_neg (show ¬ (n ≤ q ∧ q < n + (getSize st - n)) by omega),
            hb1r q, if_neg (show ¬ (0 ≤ q ∧ q < 0 + n) by omega)]
          exact hwf.dead_none q (by omega)
      · rw [cap_setBuf, cap_setSize]
        exact hNcap

/-- `Resize` preserves the invariant when it returns normally. -/
theorem resizeSt_wfc {α : Type} (N : Nat) (st : St α) (f n : Nat)
    (vals : List (Option α)) (st' : St α) (f' : Nat)
    (hwfc : WFC N st)
    (hn : n - getSize st ≤ vals.length)
    (hvals : ∀ v ∈ vals.take (n - getSize st), v.isSome = true)
    (hres : resizeSt N st f vals n = .ok (st', f')) :
    WFC N st' := by
  obtain ⟨hwf, hNcap⟩ := hwfc
  have hszle := hwf.size_le
  have htlen : (vals.take (n - getSize st)).length = n - getSize st := by
    rw [List.length_take]; omega
  simp only [resizeSt] at hres
  by_cases hshrink : n ≤ getSize st
  · rw [if_pos hshrink] at hres
    simp only [Except.ok.injEq, Prod.mk.injEq] at hres
    obtain ⟨h1, _⟩ := hres
    rw [← h1]
    have hdr : ∀ q, readSlot (destroyElements n (getBuf st) (getSize st - n)).1 q =
        if n ≤ q ∧ q < n + (getSize st - n) then none else readSlot (getBuf st) q :=
      fun q => readSlot_destroyElements n (getBuf st) (getSize st - n) q
        (by rw [hwf.buflen]; omega)
    refine ⟨setBuf_setSize_WF N st n _ hwf ?_ (by omega) ?_ ?_, ?_⟩
    · rw [destroyElements_length, hwf.buflen]
    · intro q hq
      rw [hdr q, if_neg (show ¬ (n ≤ q ∧ q < n + (getSize st - n)) by omega)]
      exact hwf.live_isSome q (by omega)
    · intro q hq
      by_cases h2 : q < getSize st
      · rw [hdr q, if_pos (show n ≤ q ∧ q < n + (getSize st - n) by omega)]
      · rw [hdr q, if_neg (show ¬ (n ≤ q ∧ q < n + (getSize st - n)) by omega)]
        exact hwf.dead_none q (by omega)
    · rw [cap_setBuf, cap_setSize]
      exact hNcap
  · rw [if_neg hshrink] at hres
    by_cases hfits : n ≤ cap N st
    · rw [if_pos hfits] at hres
      obtain ⟨b, es, hok, hblen, hbr, _⟩ := constructElements_ok false (getSize st)
        (getBuf st) (vals.take (n - getSize st)) hvals
        (by rw [hwf.buflen, htlen]; omega)
      rw [htlen] at hbr
      simp only [hok, Except.ok.injEq, Prod.mk.injEq] at hres
      obtain ⟨h1, _⟩ := hres
      rw [← h1]
      refine ⟨setBuf_setSize_WF N st n b hwf ?_ (by omega) ?_ ?_, ?_⟩
      · rw [hblen, hwf.buflen]
      · intro q hq
        by_cases h2 : q < getSize st
        · rw [hbr q,
            if_neg (show ¬ (getSize st ≤ q ∧ q < getSize st + (n - getSize st)) by omega)]
          exact hwf.live_isSome q h2
        · rw [hbr q,
            if_pos (show getSize st ≤ q ∧ q < getSize st + (n - getSize st) by omega)]
          exact readSlot_isSome_of_all _ hvals (q - getSize st) (by rw [htlen]; omega)
      · intro q hq
        rw [hbr q,
          if_neg (show ¬ (getSize st ≤ q ∧ q < getSize st + (n - getSize st)) by omega)]
        exact hwf.dead_none q (by omega)
      · rw [cap_setBuf, cap_setSize]
        exact hNcap
    · rw [if_neg hfits] at hres
      have hnle : n ≤ computeCapacity (cap N st) n := le_computeCapacity_right _ _
      have hNle : N ≤ computeCapacity (cap N st) n :=
        le_trans hNcap (le_computeCapacity_left _ _)
      obtain ⟨b1, es1, hok, hb1len, hb1r, _⟩ := constructElements_ok false (getSize st)
        (List.replicate (computeCapacity (cap N st) n) (none : Option α))
        (vals.take (n - getSize st)) hvals
        (by rw [List.length_replicate, htlen]; omega)
      rw [htlen] at hb1r
      simp only [hok, Except.ok.injEq, Prod.mk.injEq] at hres
      obtain ⟨h1, _⟩ := hres
      rw [← h1]
      have hb2r : ∀ q, readSlot (copyAcross (getBuf st) 0 b1 0 (getSize st)) q =
          if 0 ≤ q ∧ q < 0 + getSize st then readSlot (getBuf st) (0 + (q - 0))
          else readSlot b1 q :=
        fun q => readSlot_copyAcross (getBuf st) 0 b1 0 (getSize st)
          (by rw [hb1len, List.length_replicate]; omega) q
      refine ⟨mkAlloc_WF N f (computeCapacity (cap N st) n) n _ ?_ hnle ?_ ?_, hNle⟩
      · rw [copyAcross_length, hb1len, List.length_replicate]
      · intro q hq
        by_cases h2 : q < getSize st
        · rw [hb2r q, if_pos (show 0 ≤ q ∧ q < 0 + getSize st by omega),
            show 0 + (q - 0) = q by omega]
          exact hwf.live_isSome q h2
        · rw [hb2r q, if_neg (show ¬ (0 ≤ q ∧ q < 0 + getSize st) by omega),
            hb1r q,
            if_pos (show getSize st ≤ q ∧ q < getSize st + (n - getSize st) by omega)]
          exact readSlot_isSome_of_all _ hvals (q - getSize st) (by rw [htlen]; omega)
      · intro q hq
        rw [hb2r q, if_neg (show ¬ (0 ≤ q ∧ q < 0 + getSize st) by omega),
          hb1r q,
          if_neg (show ¬ (getSize st ≤ q ∧ q < getSize st + (n - getSize st)) by omega)]
        exact readSlot_replicate_none _ q

/-- `Insert` never shrinks the capacity below `N` (the reallocation path
grows it, the in-place path keeps it). -/
theorem insertSt_cap {α : Type} (N : Nat) (st : St α) (f idx : Nat)
    (vals : List (Option α)) (st' : St α) (f' : Nat)
    (hres : insertSt N st f idx vals = .ok (st', f'))
    (hN : N ≤ cap N st) : N ≤ cap N st' := by
  simp only [insertSt] at hres
  by_cases hbig : getSize st + vals.length > cap N st
  · rw [if_pos hbig] at hres
    split at hres
    · exact Except.noConfusion hres
    · simp only [Except.ok.injEq, Prod.mk.injEq] at hres
      obtain ⟨h1, _⟩ := hres
      rw [← h1]
      exact le_trans hN (le_computeCapacity_left _ _)
  · rw [if_neg hbig] at hres
    split at hres
    · exact Except.noConfusion hres
    · split at hres
      · exact Except.noConfusion hres
      · simp only [Except.ok.injEq, Prod.mk.injEq] at hres
        obtain ⟨h1, _⟩ := hres
        rw [← h1, cap_setBuf, cap_addSize]
        exact hN

/-- `Insert` preserves the invariant when it returns normally. -/
theorem insertSt_wfc {α : Type} (N : Nat) (st : St α) (f idx : Nat)
    (vals : List (Option α)) (st' : St α) (f' : Nat)
    (hwfc : WFC N st) (hidx : idx ≤ getSize st)
    (hvals : ∀ v ∈ vals, v.isSome = true)
    (hres : insertSt N st f idx vals = .ok (st', f')) :
    WFC N st' := by
  have hcap' := insertSt_cap N st f idx vals st' f' hres hwfc.2
  obtain ⟨ws, rfl⟩ := exists_map_some vals hvals
  obtain ⟨st2, f2, heq, hwf2, _, _⟩ := insertSt_ok N st f idx ws hwfc.1 hidx
  rw [heq] at hres
  simp only [Except.ok.injEq, Prod.mk.injEq] at hres
  obtain ⟨h1, _⟩ := hres
  rw [← h1] at hcap' ⊢
  exact ⟨h1 ▸ hwf2, hcap'⟩

/-- `Erase` of a valid range preserves the invariant. -/
theorem eraseSt_wfc {α : Type} (N : Nat) (st : St α) (i j : Nat)
    (hwfc : WFC N st) (hij : i ≤ j) (hj : j ≤ getSize st) :
    WFC N (eraseSt st i j) := by
  refine ⟨(eraseSt_spec N st i j hwfc.1 hij hj).1, ?_⟩
  rw [cap_eraseSt]
  exact hwfc.2

/-- `EmplaceBack` (with non-throwing moves) preserves the invariant when
it returns normally. -/
theorem emplaceBackSt_wfc {α : Type} (N : Nat) (st : St α) (f : Nat) (v? : Option α)
    (st' : St α) (f' : Nat) (es : List Ev)
    (hN : 0 < N) (hwfc : WFC N st)
    (hres : emplaceBackSt N Option.some st f v? = .ok (st', f', es)) :
    WFC N st' := by
  obtain ⟨hwf, hNcap⟩ := hwfc
  have hszle := hwf.size_le
  rw [emplaceBackSt.eq_def] at hres
  by_cases hfull : getSize st ≠ cap N st
  · rw [if_pos hfull] at hres
    cases v? with
    | none => exact Except.noConfusion hres
    | some v =>
      have hlt : getSize st < cap N st := Nat.lt_of_le_of_ne hszle hfull
      simp only [Except.ok.injEq, Prod.mk.injEq] at hres
      obtain ⟨h1, _, _⟩ := hres
      rw [← h1, addSize_setBuf_comm]
      refine ⟨setBuf_addSize_WF N st 1 _ hwf ?_ (by omega) ?_ ?_, ?_⟩
      · rw [List.length_set, hwf.buflen]
      · intro q hq
        by_cases h2 : q = getSize st
        · rw [h2, readSlot_set_eq _ _ _ (by rw [hwf.buflen]; omega)]
          rfl
        · rw [readSlot_set_ne _ _ _ q (fun hc => h2 hc.symm)]
          exact hwf.live_isSome q (by omega)
      · intro q hq
        rw [readSlot_set_ne _ _ _ q (by omega)]
        exact hwf.dead_none q (by omega)
      · rw [cap_setBuf, cap_addSize]
        exact hNcap
  · rw [if_neg hfull] at hres
    have hfull' : getSize st = cap N st := by omega
    rw [emplaceBackSlowSt.eq_def] at hres
    cases v? with
    | none => exact Except.noConfusion hres
    | some v =>
      have hmv : ∀ u ∈ moveList Option.some (getBuf st) (getSize st), u.isSome = true := by
        intro u hu
        rw [moveList] at hu
        obtain ⟨q, hq, rfl⟩ := List.mem_map.mp hu
        have hqlt : q < getSize st := List.mem_range.mp hq
        have hlv := hwf.live_isSome q hqlt
        cases hslot : readSlot (getBuf st) q with
        | none => rw [hslot] at hlv; exact absurd hlv (by simp)
        | some w => rfl
      have hmvlen : (moveList Option.some (getBuf st) (getSize st)).length = getSize st := by
        rw [moveList, List.length_map, List.length_range]
      have hb1len : ((List.replicate (nextCapacity (cap N st)) (none : Option α)).set
          (getSize st) (some v)).length = nextCapacity (cap N st) := by
        rw [List.length_set, List.length_replicate]
      have hcap2 : nextCapacity (cap N st) = cap N st * 2 := rfl
      obtain ⟨b2, es2, hok, hb2len, hb2r, _⟩ := constructElements_ok true 0
        ((List.replicate (nextCapacity (cap N st)) (none : Option α)).set
          (getSize st) (some v))
        (moveList Option.some (getBuf st) (getSize st)) hmv
        (by rw [hb1len, hmvlen, hcap2]; omega)
      rw [hmvlen] at hb2r
      simp only [hok, Except.ok.injEq, Prod.mk.injEq] at hres
      obtain ⟨h1, _, _⟩ := hres
      rw [← h1]
      have hshape : addSize (setIsAllocated
          ⟨st.word, Data.alloc f (nextCapacity (cap N st)) b2⟩) 1 =
          (⟨2 * (getSize st + 1) + 1, Data.alloc f (nextCapacity (cap N st)) b2⟩ : St α) := by
        refine st_ext _ _ ?_ rfl
        show 2 * (st.word / 2) + 1 + 2 * 1 = 2 * (st.word / 2 + 1) + 1
        omega
      rw [hshape]
      refine ⟨mkAlloc_WF N f (nextCapacity (cap N st)) (getSize st + 1) b2 ?_ ?_ ?_ ?_, ?_⟩
      · rw [hb2len, hb1len]
      · rw [hcap2]; omega
      · intro q hq
        by_cases h2 : q < getSize st
        · rw [hb2r q, if_pos (show 0 ≤ q ∧ q < 0 + getSize st by omega), Nat.sub_zero]
          exact readSlot_isSome_of_all _ hmv q (by rw [hmvlen]; omega)
        · have h3 : q = getSize st := by omega
          rw [hb2r q, if_neg (show ¬ (0 ≤ q ∧ q < 0 + getSize st) by omega), h3,
            readSlot_set_eq _ _ _ (by rw [List.length_replicate, hcap2]; omega)]
          rfl
      · intro q hq
        rw [hb2r q, if_neg (show ¬ (0 ≤ q ∧ q < 0 + getSize st) by omega),
          readSlot_set_ne _ _ _ q (by omega)]
        exact readSlot_replicate_none _ q
      · show N ≤ nextCapacity (cap N st)
        rw [hcap2]; omega

/-- `Reserve` preserves the invariant. -/
theorem reserveSt_wfc {α : Type} (N : Nat) (st : St α) (f req : Nat)
    (st' : St α) (f' : Nat) (es : List Ev)
    (hwfc : WFC N st)
    (hres : reserveSt N st f req = (st', f', es)) : WFC N st' := by
  obtain ⟨hwf, hNcap⟩ := hwfc
  have hszle := hwf.size_le
  simp only [reserveSt] at hres
  by_cases hle : req ≤ cap N st
  · rw [if_pos hle] at hres
    simp only [Prod.mk.injEq] at hres
    obtain ⟨h1, _⟩ := hres
    rw [← h1]
    exact ⟨hwf, hNcap⟩
  · rw [if_neg hle] at hres
    simp only [Prod.mk.injEq] at hres
    obtain ⟨h1, _⟩ := hres
    rw [← h1]
    have hcle : cap N st ≤ computeCapacity (cap N st) req := le_computeCapacity_left _ _
    have hb1r : ∀ q, readSlot (copyAcross (getBuf st) 0
        (List.replicate (computeCapacity (cap N st) req) (none : Option α)) 0
        (getSize st)) q =
        if 0 ≤ q ∧ q < 0 + getSize st then readSlot (getBuf st) (0 + (q - 0))
        else readSlot (List.replicate (computeCapacity (cap N st) req) (none : Option α)) q :=
      fun q => readSlot_copyAcross (getBuf st) 0 _ 0 (getSize st)
        (by rw [List.length_replicate]; omega) q
    have hshape : setIsAllocated (⟨st.word, Data.alloc f (computeCapacity (cap N st) req)
        (copyAcross (getBuf st) 0
          (List.replicate (computeCapacity (cap N st) req) none) 0 (getSize st))⟩ : St α) =
        ⟨2 * getSize st + 1, Data.alloc f (computeCapacity (cap N st) req)
          (copyAcross (getBuf st) 0
            (List.replicate (computeCapacity (cap N st) req) none) 0 (getSize st))⟩ :=
      st_ext _ _ rfl rfl
    rw [hshape]
    refine ⟨mkAlloc_WF N f (computeCapacity (cap N st) req) (getSize st) _ ?_ (by omega)
      ?_ ?_, le_trans hNcap hcle⟩
    · rw [copyAcross_length, List.length_replicate]
    · intro q hq
      rw [hb1r q, if_pos (show 0 ≤ q ∧ q < 0 + getSize st by omega),
        show 0 + (q - 0) = q by omega]
      exact hwf.live_isSome q hq
    · intro q hq
      rw [hb1r q, if_neg (show ¬ (0 ≤ q ∧ q < 0 + getSize st) by omega)]
      exact readSlot_replicate_none _ q

/-- `ShrinkToFit` on an allocated Storage preserves the invariant. -/
theorem shrinkToFitSt_wfc {α : Type} (N : Nat) (st : St α) (f : Nat)
    (st' : St α) (f' : Nat) (es : List Ev)
    (hwfc : WFC N st) (hal : getIsAllocated st = true)
    (hres : shrinkToFitSt N st f = (st', f', es)) : WFC N st' := by
  obtain ⟨hwf, hNcap⟩ := hwfc
  obtain ⟨oid, ocap, oslots, hd⟩ := data_alloc_of_alloc hwf hal
  have hszle := hwf.size_le
  have hblen := hwf.buflen
  have hliveO := hwf.live_isSome
  have hdeadO := hwf.dead_none
  rcases st with ⟨w, d⟩
  have hd' : d = Data.alloc oid ocap oslots := hd
  subst hd'
  have hw1 : w % 2 = 1 := by
    have h2 : ((w % 2 == 1) = true) := hal
    simpa using h2
  have hsz2 : w / 2 ≤ ocap := hszle
  have hN2 : N ≤ ocap := hNcap
  have hblen2 : oslots.length = ocap := hblen
  have hlive2 : ∀ q < w / 2, (readSlot oslots q).isSome = true := hliveO
  have hdead2 : ∀ q, w / 2 ≤ q → readSlot oslots q = none := hdeadO
  simp only [shrinkToFitSt, getSize] at hres
  by_cases heq : w / 2 = ocap
  · rw [if_pos heq] at hres
    simp only [Prod.mk.injEq] at hres
    obtain ⟨h1, _⟩ := hres
    rw [← h1]
    exact ⟨hwf, hNcap⟩
  · rw [if_neg heq] at hres
    by_cases hgtN : w / 2 > N
    · rw [if_pos hgtN] at hres
      simp only [Prod.mk.injEq] at hres
      obtain ⟨h1, _⟩ := hres
      rw [← h1]
      have hw : w = 2 * (w / 2) + 1 := by omega
      have hb1r : ∀ q, readSlot (copyAcross oslots 0
          (List.replicate (w / 2) (none : Option α)) 0 (w / 2)) q =
          if 0 ≤ q ∧ q < 0 + w / 2 then readSlot oslots (0 + (q - 0))
          else readSlot (List.replicate (w / 2) (none : Option α)) q :=
        fun q => readSlot_copyAcross oslots 0 _ 0 (w / 2)
          (by rw [List.length_replicate]; omega) q
      have hWF := mkAlloc_WF N f (w / 2) (w / 2)
        (copyAcross oslots 0 (List.replicate (w / 2) none) 0 (w / 2))
        (by rw [copyAcross_length, List.length_replicate]) (le_refl _)
        (fun q hq => by
          rw [hb1r q, if_pos (show 0 ≤ q ∧ q < 0 + w / 2 by omega),
            show 0 + (q - 0) = q by omega]
          exact hlive2 q hq)
        (fun q hq => by
          rw [hb1r q, if_neg (show ¬ (0 ≤ q ∧ q < 0 + w / 2) by omega)]
          exact readSlot_replicate_none _ q)
      rw [← hw] at hWF
      refine ⟨hWF, ?_⟩
      show N ≤ w / 2
      omega
    · rw [if_neg hgtN] at hres
      simp only [Prod.mk.injEq] at hres
      obtain ⟨h1, _⟩ := hres
      rw [← h1]
      have hb1r : ∀ q, readSlot (copyAcross oslots 0
          (List.replicate N (none : Option α)) 0 (w / 2)) q =
          if 0 ≤ q ∧ q < 0 + w / 2 then readSlot oslots (0 + (q - 0))
          else readSlot (List.replicate N (none : Option α)) q :=
        fun q => readSlot_copyAcross oslots 0 _ 0 (w / 2)
          (by rw [List.length_replicate]; omega) q
      have hWF := mkInl_WF N (w / 2)
        (copyAcross oslots 0 (List.replicate N none) 0 (w / 2))
        (by rw [copyAcross_length, List.length_replicate]) (by omega)
        (fun q hq => by
          rw [hb1r q, if_pos (show 0 ≤ q ∧ q < 0 + w / 2 by omega),
            show 0 + (q - 0) = q by omega]
          exact hlive2 q hq)
        (fun q hq => by
          rw [hb1r q, if_neg (show ¬ (0 ≤ q ∧ q < 0 + w / 2) by omega)]
          exact readSlot_replicate_none _ q)
      exact ⟨hWF, le_refl N⟩

/-- Every single successfully completing operation preserves the
invariant. -/
theorem stepOp_wfc {α : Type} (N : Nat) (op : Op α) (st : St α) (f : Nat)
    (st' : St α) (f' : Nat) (hN : 0 < N) (hwfc : WFC N st)
    (hstep : stepOp N op (st, f) = some (st', f')) : WFC N st' := by
  cases op with
  | initO vals n =>
    rw [stepOp] at hstep
    split at hstep
    · next hcond =>
      obtain ⟨h1, h2, h3, h4⟩ := hcond
      rcases heq : initSt N st f vals n with ⟨stE, fE, esE⟩ | ⟨st2, f2, es2⟩
      · rw [heq] at hstep
        exact Option.noConfusion hstep
      · rw [heq] at hstep
        simp only [Option.some.injEq, Prod.mk.injEq] at hstep
        obtain ⟨ha, _⟩ := hstep
        rw [← ha]
        exact initSt_wfc N st f n vals st2 f2 es2 hwfc h1 h2 h3 h4 heq
    · exact Option.noConfusion hstep
  | assignO vals n =>
    rw [stepOp] at hstep
    split at hstep
    · next hcond =>
      obtain ⟨h1, h2⟩ := hcond
      rcases heq : assignSt N st f vals n with u | ⟨st2, f2⟩
      · rw [heq] at hstep
        exact Option.noConfusion hstep
      · rw [heq] at hstep
        simp only [Except.toOption, Option.some.injEq, Prod.mk.injEq] at hstep
        obtain ⟨ha, _⟩ := hstep
        rw [← ha]
        exact assignSt_wfc N st f n vals st2 f2 hwfc h1 h2 heq
    · exact Option.noConfusion hstep
  | resizeO vals n =>
    rw [stepOp] at hstep
    split at hstep
    · next hcond =>
      obtain ⟨h1, h2⟩ := hcond
      rcases heq : resizeSt N st f vals n with u | ⟨st2, f2⟩
      · rw [heq] at hstep
        exact Option.noConfusion hstep
      · rw [heq] at hstep
        simp only [Except.toOption, Option.some.injEq, Prod.mk.injEq] at hstep
        obtain ⟨ha, _⟩ := hstep
        rw [← ha]
        exact resizeSt_wfc N st f n vals st2 f2 hwfc h1 h2 heq
    · exact Option.noConfusion hstep
  | insertO idx vals =>
    rw [stepOp] at hstep
    split at hstep
    · next hcond =>
      obtain ⟨h1, h2⟩ := hcond
      rcases heq : insertSt N st f idx vals with u | ⟨st2, f2⟩
      · rw [heq] at hstep
        exact Option.noConfusion hstep
      · rw [heq] at hstep
        simp only [Except.toOption, Option.some.injEq, Prod.mk.injEq] at hstep
        obtain ⟨ha, _⟩ := hstep
        rw [← ha]
        exact insertSt_wfc N st f idx vals st2 f2 hwfc h1 h2 heq
    · exact Option.noConfusion hstep
  | eraseO i j =>
    rw [stepOp] at hstep
    split at hstep
    · next hcond =>
      obtain ⟨h1, h2⟩ := hcond
      simp only [Option.some.injEq, Prod.mk.injEq] at hstep
      obtain ⟨ha, _⟩ := hstep
      rw [← ha]
      exact eraseSt_wfc N st i j hwfc h1 h2
    · exact Option.noConfusion hstep
  | emplaceO v? =>
    rw [stepOp] at hstep
    rcases heq : emplaceBackSt N Option.some st f v? with ⟨stE, fE, esE⟩ | ⟨st2, f2, es2⟩
    · rw [heq] at hstep
      exact Option.noConfusion hstep
    · rw [heq] at hstep
      simp only [Option.some.injEq, Prod.mk.injEq] at hstep
      obtain ⟨ha, _⟩ := hstep
      rw [← ha]
      exact emplaceBackSt_wfc N st f v? st2 f2 es2 hN hwfc heq
  | reserveO n =>
    rw [stepOp] at hstep
    rcases heq : reserveSt N st f n with ⟨st2, f2, es2⟩
    rw [heq] at hstep
    simp only [Option.some.injEq, Prod.mk.injEq] at hstep
    obtain ⟨ha, _⟩ := hstep
    rw [← ha]
    exact reserveSt_wfc N st f n st2 f2 es2 hwfc heq
  | shrinkO =>
    rw [stepOp] at hstep
    split at hstep
    · next hcond =>
      rcases heq : shrinkToFitSt N st f with ⟨st2, f2, es2⟩
      rw [heq] at hstep
      simp only [Option.some.injEq, Prod.mk.injEq] at hstep
      obtain ⟨ha, _⟩ := hstep
      rw [← ha]
      exact shrinkToFitSt_wfc N st f st2 f2 es2 hwfc hcond heq
    · exact Option.noConfusion hstep
  | swapO other =>
    rw [stepOp] at hstep
    split at hstep
    · next hcond =>
      rw [swapSt_eq N st other hwfc.1 hcond.1] at hstep
      simp only [Option.some.injEq, Prod.mk.injEq] at hstep
      obtain ⟨ha, _⟩ := hstep
      rw [← ha]
      exact hcond
    · exact Option.noConfusion hstep

/-- Running any sequence of successfully completing operations from an
invariant-satisfying state lands in an invariant-satisfying state. -/
theorem runOps_wfc {α : Type} (N : Nat) (ops : List (Op α)) (p q : St α × Nat)
    (hN : 0 < N) (hwfc : WFC N p.1) (hrun : runOps N ops p = some q) :
    WFC N q.1 := by
  induction ops generalizing p with
  | nil =>
    rw [runOps] at hrun
    simp only [Option.some.injEq] at hrun
    rw [← hrun]
    exact hwfc
  | cons op rest ih =>
    rw [runOps] at hrun
    rcases hstep : stepOp N op p with _ | p'
    · rw [hstep] at hrun
      exact Option.noConfusion hrun
    · rw [hstep] at hrun
      exact ih p' (stepOp_wfc N op p.1 p.2 p'.1 p'.2 hN hwfc hstep) hrun

/-- C9: for every Storage reachable from a freshly constructed empty
Storage by any sequence of the mutating operations (initialize, assign,
resize, insert, erase, emplace_back, reserve, shrink_to_fit, swap) that
complete successfully, the invariant `0 ≤ size ≤ capacity` holds (the
lower bound is inherent to the `Nat` size), the capacity equals `N`
whenever the Storage is not allocated, and the `is_allocated`
discriminator (the low bit of the packed size word) names the live
buffer variant. -/
theorem storage_invariant {α : Type} (N : Nat) (ops : List (Op α))
    (st' : St α) (f' : Nat) (hN : 0 < N)
    (hrun : runOps N ops (emptySt α N, 0) = some (st', f')) :
    getSize st' ≤ cap N st' ∧
    (getIsAllocated st' = false → cap N st' = N) ∧
    getIsAllocated st' = dataIsAlloc st'.data := by
  have h0 : WFC N (emptySt α N, 0).1 := ⟨WF_emptySt N, le_refl N⟩
  have hwfc := runOps_wfc N ops (emptySt α N, 0) (st', f') hN h0 hrun
  refine ⟨hwfc.1.size_le, ?_, hwfc.1.bit⟩
  intro hal
  obtain ⟨slots, hd⟩ := data_inl_of_not_alloc hwfc.1 hal
  exact cap_of_inl N st' slots hd

/-- Witness for C9: with `N = 1`, the sequence emplace (growing onto the
heap: `1 → 2` capacity doubling), insert at the front, erase of the
middle element, then shrink_to_fit lands in a concrete reachable state
satisfying the invariant. -/
theorem storage_invariant_witness :
    (0 < 1 ∧
      runOps 1 [Op.emplaceO (some 7), Op.emplaceO (some 8),
          Op.insertO 0 [some 5], Op.eraseO 1 2, Op.shrinkO]
        (emptySt Nat 1, 0) = some (⟨5, Data.alloc 2 2 [some 5, some 8]⟩, 3)) ∧
    (getSize (⟨5, Data.alloc 2 2 [some 5, some 8]⟩ : St Nat) ≤
        cap 1 (⟨5, Data.alloc 2 2 [some 5, some 8]⟩ : St Nat) ∧
      (getIsAllocated (⟨5, Data.alloc 2 2 [some 5, some 8]⟩ : St Nat) = false →
        cap 1 (⟨5, Data.alloc 2 2 [some 5, some 8]⟩ : St Nat) = 1) ∧
      getIsAllocated (⟨5, Data.alloc 2 2 [some 5, some 8]⟩ : St Nat) =
        dataIsAlloc (⟨5, Data.alloc 2 2 [some 5, some 8]⟩ : St Nat).data) :=
  ⟨⟨by decide, by decide⟩,
    storage_invariant 1
      [Op.emplaceO (some 7), Op.emplaceO (some 8),
        Op.insertO 0 [some 5], Op.eraseO 1 2, Op.shrinkO]
      (⟨5, Data.alloc 2 2 [some 5, some 8]⟩ : St Nat) 3 (by decide) (by decide)⟩

end InlinedVec
